import Mathlib

/-!
Shallow embedding of the auction pallet in `pallets/template/src/lib.rs`
(the Auction Engine of the spec), together with its external collaborators:
the Currency Ledger (a reservable currency: free/reserved balances) and the
Ownership Registry (the uniques pallet restricted to the interface the
engine consumes: owner lookup, freeze, thaw, transfer of custody, and the
collection owner used as royalty recipient).

Modelling conventions:
- account ids, asset ids (one id standing for the (collection, item) pair),
  balances and block numbers are all `Nat`; balances in the chain are u128
  and none of the verified claims concerns 128-bit overflow;
- the Currency Ledger is external to the repository; following the spec it
  fails only on insufficient funds, so existential-deposit edge conditions
  of the concrete chain are not modelled (`ExistenceRequirement` checks
  reduce to `free < amount`);
- the Ownership Registry is likewise external; `freeze`/`thaw` fail when the
  item is missing, `do_transfer` fails when the item is missing or frozen,
  and the role/permission checks of the concrete uniques pallet are outside
  the engine's interface boundary described by the spec;
- every dispatchable runs under the runtime's transactional storage layer:
  an error discards all staged writes, which the embedding renders by
  threading state through `Except` (an error carries no state and the
  dispatch wrapper `applyOp` keeps the pre-state); `finalize_auction` is
  additionally written in a raw form returning its partially mutated state
  so that its own `transactional` attribute can be stated, not assumed.
-/

namespace Auction

/-- Pointwise update of a `Nat`-indexed table of naturals. -/
def updN (f : Nat → Nat) (k v : Nat) : Nat → Nat :=
  fun n => if n = k then v else f n

/-- Pointwise update of a `Nat`-indexed table of booleans. -/
def updB (f : Nat → Bool) (k : Nat) (v : Bool) : Nat → Bool :=
  fun n => if n = k then v else f n

/-- Pointwise update of the bid-book table. -/
def updBook (f : Nat → List (Nat × Nat)) (k : Nat) (v : List (Nat × Nat)) :
    Nat → List (Nat × Nat) :=
  fun n => if n = k then v else f n

/-- Pointwise update of a `Nat`-indexed table of optional owners. -/
def updOwn (f : Nat → Option Nat) (k : Nat) (v : Option Nat) : Nat → Option Nat :=
  fun n => if n = k then v else f n

/-- Insertion of an element at a position of a list, as `Vec::insert`
(positions past the end append, which the callers never exercise). -/
def insertAt (pos : Nat) (e : Nat × Nat) : List (Nat × Nat) → List (Nat × Nat)
  | [] => [e]
  | h :: t =>
    match pos with
    | 0 => e :: h :: t
    | p + 1 => h :: insertAt p e t

/-- The `AuctionInfo` struct of the pallet. -/
structure AuctionInfo where
  owner : Nat
  start_block : Nat
  highest_bid : Nat
  highest_bidder : Option Nat
  ended : Bool
deriving DecidableEq, Repr

/-- Events deposited by the pallet. -/
inductive Event where
  | nftListed (asset owner : Nat)
  | bidPlaced (asset bidder amount : Nat)
  | auctionResolved (asset winner amount : Nat)
  | auctionFailed (asset : Nat)
  | feePercentageSet (fee : Nat)
  | feesWithdrawn (dest amount : Nat)
deriving DecidableEq, Repr

/-- Errors of the pallet, plus the dispatch-level failures surfaced by the
collaborators (`insufficientBalance` from the Currency Ledger, `badOrigin`
from `ensure_root`, `registryFailure` from the Ownership Registry). -/
inductive Err where
  | nftAlreadyInAuction
  | auctionNotFound
  | notNftOwner
  | auctionEnded
  | bidTooLow
  | cannotBidOnOwnAuction
  | tooManyBids
  | noValidBuyer
  | nftNotFound
  | invalidFee
  | noFeesAvailable
  | insufficientBalance
  | badOrigin
  | registryFailure
deriving DecidableEq, Repr

/-- The Currency Ledger: free and reserved balance per account. -/
structure Ledger where
  free : Nat → Nat
  reserved : Nat → Nat

/-- `ReservableCurrency::reserve`: move `v` from free to reserved, failing
on insufficient free balance. -/
def Ledger.reserve (l : Ledger) (a v : Nat) : Option Ledger :=
  if l.free a < v then none
  else some { free := updN l.free a (l.free a - v),
              reserved := updN l.reserved a (l.reserved a + v) }

/-- `ReservableCurrency::unreserve`: move back at most the actually
reserved amount; never fails. -/
def Ledger.unreserve (l : Ledger) (a v : Nat) : Ledger :=
  let u := min v (l.reserved a)
  { free := updN l.free a (l.free a + u),
    reserved := updN l.reserved a (l.reserved a - u) }

/-- `Currency::withdraw`: remove `v` from the free balance, failing on
insufficient funds. -/
def Ledger.withdraw (l : Ledger) (a v : Nat) : Option Ledger :=
  if l.free a < v then none
  else some { l with free := updN l.free a (l.free a - v) }

/-- `Currency::deposit_creating`: add `v` to the free balance. -/
def Ledger.deposit (l : Ledger) (a v : Nat) : Ledger :=
  { l with free := updN l.free a (l.free a + v) }

/-- `Currency::transfer`: withdraw from `src`, deposit to `dst`. -/
def Ledger.transfer (l : Ledger) (src dst v : Nat) : Option Ledger :=
  match l.withdraw src v with
  | none => none
  | some l1 => some (l1.deposit dst v)

/-- `Currency::can_slash` as implemented by the balances pallet: a zero
value is always slashable, otherwise the free balance must cover it. -/
def Ledger.canSlash (l : Ledger) (a v : Nat) : Bool :=
  v = 0 || decide (v ≤ l.free a)

/-- The runtime configuration of the pallet (`Config` trait constants).
The deployed runtime uses `maxBids = 100`, `timeoutBlocks = 100`,
`royaltyPercentage = 10`. -/
structure Config where
  maxBids : Nat
  timeoutBlocks : Nat
  royaltyPercentage : Nat
  palletAccount : Nat

/-- The whole observable state: pallet storage, collaborator state, the
block clock and the event log. The `Auctions` storage map is an
association list so that the sweep's `iter` is expressible. -/
structure State where
  ledger : Ledger
  auctions : List (Nat × AuctionInfo)
  bids : Nat → List (Nat × Nat)
  inAuction : Nat → Bool
  feePercentage : Nat
  accumulatedFees : Nat
  itemOwner : Nat → Option Nat
  itemFrozen : Nat → Bool
  collOwner : Nat → Option Nat
  now : Nat
  events : List Event

/-- Lookup in the `Auctions` storage map. -/
def lookupA (x : Nat) : List (Nat × AuctionInfo) → Option AuctionInfo
  | [] => none
  | (k, v) :: t => if k = x then some v else lookupA x t

/-- `StorageMap::insert`: replace the value under the key, or append a new
binding. -/
def insertA (x : Nat) (v : AuctionInfo) (l : List (Nat × AuctionInfo)) :
    List (Nat × AuctionInfo) :=
  if l.any (fun e => e.1 = x) then
    l.map (fun e => if e.1 = x then (x, v) else e)
  else l ++ [(x, v)]

/-- `StorageMap::mutate` restricted to present keys, as the pallet uses it
(the closure only rewrites an existing record). -/
def updateA (x : Nat) (f : AuctionInfo → AuctionInfo)
    (l : List (Nat × AuctionInfo)) : List (Nat × AuctionInfo) :=
  l.map (fun e => if e.1 = x then (x, f e.2) else e)

/-- The dispatch origin of a call. -/
inductive Origin where
  | signed (who : Nat)
  | root
deriving DecidableEq, Repr

/-- `list_nft_for_auction`: ownership check, in-auction check, freeze,
record creation, index update, event. -/
def list_nft_for_auction (caller x : Nat) (s : State) : Except Err State :=
  match s.itemOwner x with
  | none => .error .nftNotFound
  | some nft_owner =>
    if caller ≠ nft_owner then .error .notNftOwner
    else if s.inAuction x then .error .nftAlreadyInAuction
    else
      let r : AuctionInfo :=
        { owner := caller, start_block := s.now, highest_bid := 0,
          highest_bidder := none, ended := false }
      .ok { s with
            itemFrozen := updB s.itemFrozen x true,
            auctions := insertA x r s.auctions,
            inAuction := updB s.inAuction x true,
            events := s.events ++ [.nftListed x caller] }

/-- `place_bid`: validation, reserve of the full new amount, release of the
previous highest bidder's amount, record update, and the sorted bounded
insertion into the Bid Book (`binary_search_by` with a reversed comparator
positions the bid after all strictly larger amounts; at capacity the bid is
rejected when it would rank last, otherwise the lowest entry is popped). -/
def place_bid (cfg : Config) (bidder x amount : Nat) (s : State) :
    Except Err State :=
  match lookupA x s.auctions with
  | none => .error .auctionNotFound
  | some auction_info =>
    if auction_info.ended then .error .auctionEnded
    else if bidder = auction_info.owner then .error .cannotBidOnOwnAuction
    else if ¬ auction_info.highest_bid < amount then .error .bidTooLow
    else
      match s.ledger.reserve bidder amount with
      | none => .error .insufficientBalance
      | some led1 =>
        let led2 :=
          match auction_info.highest_bidder with
          | some highest_bidder => led1.unreserve highest_bidder auction_info.highest_bid
          | none => led1
        let new_auction_info : AuctionInfo :=
          { auction_info with highest_bid := amount, highest_bidder := some bidder }
        let bids0 := (s.bids x).filter (fun e => e.1 ≠ bidder)
        let pos := (bids0.filter (fun e => amount < e.2)).length
        if bids0.length = cfg.maxBids ∧ bids0.length ≤ pos then .error .bidTooLow
        else
          let bids1 := if bids0.length = cfg.maxBids then bids0.dropLast else bids0
          if cfg.maxBids ≤ bids1.length then .error .tooManyBids
          else
            .ok { s with
                  ledger := led2,
                  auctions := insertA x new_auction_info s.auctions,
                  bids := updBook s.bids x (insertAt pos (bidder, amount) bids1),
                  events := s.events ++ [.bidPlaced x bidder amount] }

/-- The body of `finalize_auction` without its `transactional` wrapper: the
returned state carries every mutation applied before the point of failure,
and the optional error reports that failure. -/
def finalizeRaw (cfg : Config) (x buyer bid_amount : Nat) (s : State) :
    State × Option Err :=
  match lookupA x s.auctions with
  | none => (s, some .auctionNotFound)
  | some auction_info =>
    if auction_info.ended then (s, some .auctionEnded)
    else
      match s.itemOwner x with
      | none => (s, some .nftNotFound)
      | some current_owner =>
        if current_owner ≠ auction_info.owner then (s, some .notNftOwner)
        else if ¬ s.ledger.canSlash buyer bid_amount then (s, some .noValidBuyer)
        else
          let royalty_amount := bid_amount * cfg.royaltyPercentage / 100
          let led1 := s.ledger.unreserve buyer bid_amount
          match led1.withdraw buyer bid_amount with
          | none => ({ s with ledger := led1 }, some .insufficientBalance)
          | some led2 =>
            let led3 :=
              if 0 < royalty_amount then
                match s.collOwner x with
                | some collection_admin => led2.deposit collection_admin royalty_amount
                | none => led2
              else led2
            let fee_amount := bid_amount * s.feePercentage / 100
            let payout := bid_amount - fee_amount
            let led4 := led3.deposit auction_info.owner payout
            let led5 := led4.deposit cfg.palletAccount fee_amount
            let s1 := { s with ledger := led5,
                               accumulatedFees := s.accumulatedFees + fee_amount }
            match s1.itemOwner x with
            | none => (s1, some .registryFailure)
            | some _ =>
              let s2 := { s1 with itemFrozen := updB s1.itemFrozen x false }
              match s2.itemOwner x with
              | none => (s2, some .registryFailure)
              | some _ =>
                if s2.itemFrozen x then (s2, some .registryFailure)
                else
                  let s3 := { s2 with itemOwner := updOwn s2.itemOwner x (some buyer) }
                  let s4 := { s3 with
                    auctions := updateA x
                      (fun a => { a with ended := true, highest_bidder := some buyer })
                      s3.auctions,
                    inAuction := updB s3.inAuction x false,
                    bids := updBook s3.bids x [],
                    events := s3.events ++ [.auctionResolved x buyer bid_amount] }
                  (s4, none)

/-- `finalize_auction` with its `transactional` attribute: on failure every
staged write of the body is discarded. -/
def finalize_auction (cfg : Config) (x buyer bid_amount : Nat) (s : State) :
    Except Err State :=
  match finalizeRaw cfg x buyer bid_amount s with
  | (s1, none) => .ok s1
  | (_, some e) => .error e

/-- `resolve_auction`: owner-triggered settlement with the highest bidder. -/
def resolve_auction (cfg : Config) (caller x : Nat) (s : State) :
    Except Err State :=
  match lookupA x s.auctions with
  | none => .error .auctionNotFound
  | some auction_info =>
    if auction_info.ended then .error .auctionEnded
    else if caller ≠ auction_info.owner then .error .notNftOwner
    else
      match auction_info.highest_bidder with
      | none => .error .noValidBuyer
      | some highest_bidder =>
        finalize_auction cfg x highest_bidder auction_info.highest_bid s

/-- `set_fee_percentage`: root only, bounded by 100. -/
def set_fee_percentage (origin : Origin) (fee : Nat) (s : State) :
    Except Err State :=
  if origin ≠ Origin.root then .error .badOrigin
  else if 100 < fee then .error .invalidFee
  else .ok { s with feePercentage := fee,
                    events := s.events ++ [.feePercentageSet fee] }

/-- `withdraw_fees`: root only; takes the accumulated fees (zeroing the
storage value), fails when they are zero, then transfers them from the
pallet account; an error discards the staged zeroing. -/
def withdraw_fees (cfg : Config) (origin : Origin) (dest : Nat) (s : State) :
    Except Err State :=
  if origin ≠ Origin.root then .error .badOrigin
  else
    let total_fees := s.accumulatedFees
    let s1 := { s with accumulatedFees := 0 }
    if total_fees = 0 then .error .noFeesAvailable
    else
      match s1.ledger.transfer cfg.palletAccount dest total_fees with
      | none => .error .insufficientBalance
      | some led =>
        .ok { s1 with ledger := led,
                      events := s1.events ++ [.feesWithdrawn dest total_fees] }

/-- The failure exit of `auto_resolve_auction`: mark the fetched record
ended and deposit `AuctionFailed`; the Bid Book, the in-auction flag and
the reserved balances are left untouched. -/
def markFailed (x : Nat) (auction_info : AuctionInfo) (s : State) : State :=
  { s with auctions := insertA x { auction_info with ended := true } s.auctions,
           events := s.events ++ [.auctionFailed x] }

/-- The fallback loop of `auto_resolve_auction`: walk the Bid Book in book
order, skipping the highest bidder, and return the first successful
settlement (each failed attempt is rolled back, so every attempt runs
against the same state). -/
def tryFallback (cfg : Config) (x hb : Nat) (s : State) :
    List (Nat × Nat) → Option State
  | [] => none
  | (bidder, bid_amount) :: rest =>
    if bidder ≠ hb then
      match finalize_auction cfg x bidder bid_amount s with
      | .ok t => some t
      | .error _ => tryFallback cfg x hb s rest
    else tryFallback cfg x hb s rest

/-- `auto_resolve_auction`: settle with the highest bidder, fall back to the
rest of the Bid Book, and otherwise (or with no bids at all) mark the
auction failed. -/
def auto_resolve_auction (cfg : Config) (x : Nat) (s : State) :
    Except Err State :=
  match lookupA x s.auctions with
  | none => .error .auctionNotFound
  | some auction_info =>
    if auction_info.ended then .error .auctionEnded
    else
      match auction_info.highest_bidder with
      | some highest_bidder =>
        match finalize_auction cfg x highest_bidder auction_info.highest_bid s with
        | .ok t => .ok t
        | .error _ =>
          match tryFallback cfg x highest_bidder s (s.bids x) with
          | some t => .ok t
          | none => .ok (markFailed x auction_info s)
      | none => .ok (markFailed x auction_info s)

/-- The overdue auctions collected by `on_initialize`: non-ended records
whose timeout has elapsed, in storage-iteration order. -/
def overdueKeys (cfg : Config) (s : State) : List Nat :=
  (s.auctions.filter
    (fun e => !e.2.ended && decide (e.2.start_block + cfg.timeoutBlocks ≤ s.now))).map
    (fun e => e.1)

/-- One per-asset step of the sweep: `let _ = Self::auto_resolve_auction(..)`
ignores the per-auction error. -/
def resolveStep (cfg : Config) (st : State) (x : Nat) : State :=
  match auto_resolve_auction cfg x st with
  | .ok t => t
  | .error _ => st

/-- The resolution phase of `on_initialize`: resolve each collected auction,
ignoring per-auction errors. -/
def sweep (cfg : Config) (s : State) : State :=
  (overdueKeys cfg s).foldl (resolveStep cfg) s

/-- One block transition: advance the clock and run `on_initialize`. -/
def tick (cfg : Config) (s : State) : State :=
  sweep cfg { s with now := s.now + 1 }

/-- The operations that drive the state machine. -/
inductive Op where
  | listNft (caller x : Nat)
  | placeBid (caller x amount : Nat)
  | resolveAuction (caller x : Nat)
  | setFee (origin : Origin) (fee : Nat)
  | withdrawFees (origin : Origin) (dest : Nat)
  | nextBlock
deriving DecidableEq, Repr

/-- Dispatch an operation. Extrinsics run transactionally: an error leaves
the state unchanged. -/
def applyOp (cfg : Config) (op : Op) (s : State) : State :=
  match op with
  | .listNft c x => ((list_nft_for_auction c x s).toOption).getD s
  | .placeBid c x m => ((place_bid cfg c x m s).toOption).getD s
  | .resolveAuction c x => ((resolve_auction cfg c x s).toOption).getD s
  | .setFee o f => ((set_fee_percentage o f s).toOption).getD s
  | .withdrawFees o d => ((withdraw_fees cfg o d s).toOption).getD s
  | .nextBlock => tick cfg s

/-- Run a list of operations from a state. -/
def runOps (cfg : Config) (ops : List Op) (s : State) : State :=
  ops.foldl (fun st op => applyOp cfg op st) s

/-- Genesis condition: no auctions, no bids, nothing reserved or frozen,
no accumulated fees and a zero fee rate; free balances, item owners,
collection owners and the clock are arbitrary. -/
def initOk (s : State) : Prop :=
  (∀ a, s.ledger.reserved a = 0) ∧ s.auctions = [] ∧
  (∀ x, s.bids x = []) ∧ (∀ x, s.inAuction x = false) ∧
  (∀ x, s.itemFrozen x = false) ∧
  s.feePercentage = 0 ∧ s.accumulatedFees = 0 ∧ s.events = []

/-- States reachable from a genesis state by dispatching operations. -/
inductive Reachable (cfg : Config) : State → Prop
  | base (s : State) : initOk s → Reachable cfg s
  | step (s : State) (op : Op) : Reachable cfg s → Reachable cfg (applyOp cfg op s)

/-- An operation touching no asset other than `x`. -/
def Op.touchesOnly (x : Nat) : Op → Prop
  | .listNft _ y => y = x
  | .placeBid _ y _ => y = x
  | .resolveAuction _ y => y = x
  | _ => True

/-- States reachable when every asset-directed operation targets the single
asset `x`. -/
inductive ReachableOn (cfg : Config) (x : Nat) : State → Prop
  | base (s : State) : initOk s → ReachableOn cfg x s
  | step (s : State) (op : Op) : ReachableOn cfg x s → op.touchesOnly x →
      ReachableOn cfg x (applyOp cfg op s)

/-- The deployed runtime configuration: 100 bids per auction, 100-block
timeout, 10 percent royalty; account 0 stands for the pallet account. -/
def cfgW : Config :=
  { maxBids := 100, timeoutBlocks := 100, royaltyPercentage := 10, palletAccount := 0 }

/-- A configuration with a short timeout, for sweep scenarios. -/
def cfgT : Config :=
  { maxBids := 100, timeoutBlocks := 2, royaltyPercentage := 10, palletAccount := 0 }

/-- A configuration with a capacity-one Bid Book, for capacity scenarios. -/
def cfgK : Config :=
  { maxBids := 1, timeoutBlocks := 2, royaltyPercentage := 10, palletAccount := 0 }

/-- A genesis state: items 0 and 1 exist, owned by accounts 1 and 2, with
collection owner 9; every account starts with 1000 free. -/
def init0 : State :=
  { ledger := { free := fun _ => 1000, reserved := fun _ => 0 },
    auctions := [], bids := fun _ => [], inAuction := fun _ => false,
    feePercentage := 0, accumulatedFees := 0,
    itemOwner := fun y => if y = 0 then some 1 else if y = 1 then some 2 else none,
    itemFrozen := fun _ => false, collOwner := fun _ => some 9,
    now := 0, events := [] }

theorem init0_ok : initOk init0 :=
  ⟨fun _ => rfl, rfl, fun _ => rfl, fun _ => rfl, fun _ => rfl, rfl, rfl, rfl⟩

/-- Genesis where account 3 holds exactly 60 free, so that after reserving
a bid of 60 it cannot pass the settlement `can_slash` check. -/
def init60 : State :=
  { init0 with ledger := { free := fun a => if a = 3 then 60 else 1000,
                           reserved := fun _ => 0 } }

theorem init60_ok : initOk init60 :=
  ⟨fun _ => rfl, rfl, fun _ => rfl, fun _ => rfl, fun _ => rfl, rfl, rfl, rfl⟩

/-- Both items listed, then account 3 becomes highest bidder on both. -/
def sC1 : State :=
  runOps cfgW [.listNft 1 0, .listNft 2 1, .placeBid 3 0 50, .placeBid 3 1 70] init0

/-- C1 counterexample: in a reachable state, asset 0 carries an active
auction whose highest bidder is account 3 with highest bid 50, yet the
reserved balance of account 3 is 120, because reserved balances aggregate
the escrow of every auction the account is highest bidder of (here assets
0 and 1). So the claimed equality `reserved_balance(b) = highest_bid` is
false. -/
theorem c1_counterexample :
    Reachable cfgW sC1 ∧
    lookupA 0 sC1.auctions =
      some { owner := 1, start_block := 0, highest_bid := 50,
             highest_bidder := some 3, ended := false } ∧
    sC1.ledger.reserved 3 = 120 ∧ sC1.ledger.reserved 3 ≠ 50 := by
  refine ⟨?_, by decide, by decide, by decide⟩
  have h : sC1 = applyOp cfgW (.placeBid 3 1 70) (applyOp cfgW (.placeBid 3 0 50)
      (applyOp cfgW (.listNft 2 1) (applyOp cfgW (.listNft 1 0) init0))) := rfl
  rw [h]
  exact .step _ _ (.step _ _ (.step _ _ (.step _ _ (.base _ init0_ok))))

/-- Asset 0 listed, bid 50 by account 3, then outbid with 60 by account 4. -/
def sC3 : State :=
  runOps cfgW [.listNft 1 0, .placeBid 3 0 50, .placeBid 4 0 60] init0

/-- C3 counterexample: in a reachable state with an active auction, the Bid
Book entry `(3, 50)` is not the current highest (account 4 is, with 60),
and the reserved balance of account 3 is 0, not 50: outbidding released the
previous highest bidder's reservation while keeping their book entry. -/
theorem c3_counterexample :
    Reachable cfgW sC3 ∧
    lookupA 0 sC3.auctions =
      some { owner := 1, start_block := 0, highest_bid := 60,
             highest_bidder := some 4, ended := false } ∧
    sC3.bids 0 = [(4, 60), (3, 50)] ∧
    sC3.ledger.reserved 3 = 0 ∧ sC3.ledger.reserved 3 ≠ 50 := by
  refine ⟨?_, by decide, by decide, by decide, by decide⟩
  have h : sC3 = applyOp cfgW (.placeBid 4 0 60) (applyOp cfgW (.placeBid 3 0 50)
      (applyOp cfgW (.listNft 1 0) init0)) := rfl
  rw [h]
  exact .step _ _ (.step _ _ (.step _ _ (.base _ init0_ok)))

/-- Asset 0 listed with no bids, then swept after the timeout. -/
def sC7 : State := runOps cfgT [.listNft 1 0, .nextBlock, .nextBlock] init0

/-- C7, evidence of the code bug: after the timeout sweep marks a no-bid
auction failed, the record is ended but the asset is still flagged as in
auction (and still frozen), so it can never be listed again; a repeated
listing call fails with `NftAlreadyInAuction`. -/
theorem c7_failed_auction_remains_in_index :
    Reachable cfgT sC7 ∧
    lookupA 0 sC7.auctions =
      some { owner := 1, start_block := 0, highest_bid := 0,
             highest_bidder := none, ended := true } ∧
    sC7.inAuction 0 = true ∧ sC7.itemFrozen 0 = true ∧
    list_nft_for_auction 1 0 sC7 = .error .nftAlreadyInAuction := by
  refine ⟨?_, by decide, by decide, by decide, by rfl⟩
  have h : sC7 = applyOp cfgT .nextBlock (applyOp cfgT .nextBlock
      (applyOp cfgT (.listNft 1 0) init0)) := rfl
  rw [h]
  exact .step _ _ (.step _ _ (.step _ _ (.base _ init0_ok)))

theorem updN_same (f : Nat → Nat) (k v : Nat) : updN f k v k = v := by
  simp [updN]

theorem updN_other (f : Nat → Nat) (k v n : Nat) (h : n ≠ k) : updN f k v n = f n := by
  simp [updN, h]

theorem unreserve_free (l : Ledger) (a v : Nat) :
    (l.unreserve a v).free a = l.free a + min v (l.reserved a) := by
  simp [Ledger.unreserve, updN]

/-- If `can_slash` held before the escrow release, the subsequent withdrawal
of the bid amount cannot fail. -/
theorem canSlash_withdraw (l : Ledger) (a v : Nat) (h : l.canSlash a v = true) :
    (l.unreserve a v).withdraw a v ≠ none := by
  have hv : v = 0 ∨ v ≤ l.free a := by
    simpa [Ledger.canSlash, decide_eq_true_iff] using h
  have hfree : v ≤ (l.unreserve a v).free a := by
    rw [unreserve_free]
    rcases hv with hv | hv
    · omega
    · exact Nat.le_trans hv (Nat.le_add_right _ _)
  simp [Ledger.withdraw, Nat.not_lt.mpr hfree]

/-- C2: settlement is all-or-nothing. Whenever the body of
`finalize_auction` reports an error, the state it returns is exactly the
input state — no balance, fee, registry, record, index or Bid Book
component has changed — and the `transactional` wrapper surfaces the
same error. -/
theorem c2_finalize_atomic (cfg : Config) (x buyer bid_amount : Nat)
    (s s1 : State) (e : Err)
    (h : finalizeRaw cfg x buyer bid_amount s = (s1, some e)) :
    s1 = s ∧ finalize_auction cfg x buyer bid_amount s = .error e := by
  refine ⟨?_, by simp [finalize_auction, h]⟩
  unfold finalizeRaw at h
  rcases hA : lookupA x s.auctions with _ | ai <;> simp only [hA] at h
  · injection h with h1 _; exact h1.symm
  by_cases hE : ai.ended = true
  · simp only [if_pos hE] at h; injection h with h1 _; exact h1.symm
  simp only [if_neg hE] at h
  rcases hO : s.itemOwner x with _ | cur <;> simp only [hO] at h
  · injection h with h1 _; exact h1.symm
  by_cases hC : cur ≠ ai.owner
  · simp only [if_pos hC] at h; injection h with h1 _; exact h1.symm
  simp only [if_neg hC] at h
  by_cases hS : s.ledger.canSlash buyer bid_amount = true
  · simp only [if_neg (not_not_intro hS)] at h
    rcases hL : (s.ledger.unreserve buyer bid_amount).withdraw buyer bid_amount
        with _ | led2
    · exact absurd hL (canSlash_withdraw _ _ _ hS)
    · simp [hL, hO, updB] at h
  · simp only [if_pos hS] at h; injection h with h1 _; exact h1.symm

/-- Witness for C2: a settlement attempt on an unlisted asset fails with
`AuctionNotFound` and returns the genesis state untouched. -/
theorem c2_finalize_atomic_witness :
    init0 = init0 ∧ finalize_auction cfgW 5 3 10 init0 = .error .auctionNotFound :=
  c2_finalize_atomic cfgW 5 3 10 init0 init0 .auctionNotFound rfl

theorem finalizeRaw_of_ok {cfg : Config} {x buyer bid_amount : Nat} {s t : State}
    (h : finalize_auction cfg x buyer bid_amount s = .ok t) :
    finalizeRaw cfg x buyer bid_amount s = (t, none) := by
  unfold finalize_auction at h
  rcases hr : finalizeRaw cfg x buyer bid_amount s with ⟨s1, e?⟩
  rw [hr] at h
  rcases e? with _ | e
  · injection h with h1; rw [h1]
  · simp at h

/-- C4: amounts moved by a successful settlement, for pairwise distinct
buyer, auction owner, royalty recipient and treasury account:
`fee = floor(bid * fee_percent / 100)` goes to the treasury account and to
`accumulated_fees`; `royalty = floor(bid * royalty_percent / 100)` goes to
the collection owner exactly when positive; the owner receives
`payout = bid - fee`, not additionally reduced by the royalty. -/
theorem c4_settlement_amounts (cfg : Config) (x buyer bid_amount : Nat)
    (s t : State) (r : AuctionInfo) (rr : Nat)
    (hA : lookupA x s.auctions = some r)
    (hRR : s.collOwner x = some rr)
    (hok : finalize_auction cfg x buyer bid_amount s = .ok t)
    (hd1 : r.owner ≠ rr) (hd2 : r.owner ≠ cfg.palletAccount) (hd3 : r.owner ≠ buyer)
    (hd4 : rr ≠ cfg.palletAccount) (hd5 : rr ≠ buyer)
    (hd6 : cfg.palletAccount ≠ buyer) :
    t.accumulatedFees = s.accumulatedFees + bid_amount * s.feePercentage / 100 ∧
    t.ledger.free cfg.palletAccount =
      s.ledger.free cfg.palletAccount + bid_amount * s.feePercentage / 100 ∧
    (0 < bid_amount * cfg.royaltyPercentage / 100 →
      t.ledger.free rr = s.ledger.free rr + bid_amount * cfg.royaltyPercentage / 100) ∧
    (bid_amount * cfg.royaltyPercentage / 100 = 0 →
      t.ledger.free rr = s.ledger.free rr) ∧
    t.ledger.free r.owner =
      s.ledger.free r.owner + (bid_amount - bid_amount * s.feePercentage / 100) := by
  have hraw := finalizeRaw_of_ok hok
  unfold finalizeRaw at hraw
  simp only [hA] at hraw
  by_cases hE : r.ended = true
  · simp [if_pos hE] at hraw
  simp only [if_neg hE] at hraw
  rcases hO : s.itemOwner x with _ | cur <;> simp only [hO] at hraw
  · simp at hraw
  by_cases hC : cur ≠ r.owner
  · simp [if_pos hC] at hraw
  simp only [if_neg hC] at hraw
  by_cases hS : s.ledger.canSlash buyer bid_amount = true
  · simp only [if_neg (not_not_intro hS)] at hraw
    rcases hL : (s.ledger.unreserve buyer bid_amount).withdraw buyer bid_amount
        with _ | led2
    · exact absurd hL (canSlash_withdraw _ _ _ hS)
    · have hwd : ∀ a, a ≠ buyer → led2.free a = s.ledger.free a := by
        intro a ha
        have h1 : led2.free a = (s.ledger.unreserve buyer bid_amount).free a := by
          unfold Ledger.withdraw at hL
          split at hL
          · exact absurd hL (by simp)
          · injection hL with hL1; rw [← hL1]; exact updN_other _ _ _ _ ha
        rw [h1]
        unfold Ledger.unreserve
        exact updN_other _ _ _ _ ha
      by_cases hRoy : 0 < bid_amount * cfg.royaltyPercentage / 100
      · simp only [hL, if_pos hRoy, hRR, hO, updB] at hraw
        injection hraw with ht _
        rw [← ht]
        refine ⟨rfl, ?_, fun _ => ?_, fun hz => absurd hz (by omega), ?_⟩ <;>
          simp [Ledger.deposit, updN, hd1, hd2, hd4, Ne.symm hd1, Ne.symm hd2,
                Ne.symm hd4, hwd _ hd3, hwd _ hd5, hwd _ hd6]
      · simp only [hL, if_neg hRoy, hO, updB] at hraw
        injection hraw with ht _
        rw [← ht]
        refine ⟨rfl, ?_, fun hp => absurd hp hRoy, fun _ => ?_, ?_⟩ <;>
          simp [Ledger.deposit, updN, hd1, hd2, hd4, Ne.symm hd1, Ne.symm hd2,
                Ne.symm hd4, hwd _ hd3, hwd _ hd5, hwd _ hd6]
  · have hS2 : s.ledger.canSlash buyer bid_amount = false := by
      cases hcs : s.ledger.canSlash buyer bid_amount
      · rfl
      · exact absurd hcs hS
    simp [hS2] at hraw

/-- A genesis-to-settlement run: the fee rate is set to 5, asset 0 is
listed by account 1, account 3 bids 100. -/
def sW4 : State :=
  runOps cfgW [.setFee .root 5, .listNft 1 0, .placeBid 3 0 100] init0

/-- The state after the owner resolves the auction of `sW4`. -/
def tW4 : State := applyOp cfgW (.resolveAuction 1 0) sW4

/-- Witness for C4 at bid 100, fee percent 5, royalty percent 10. -/
theorem c4_settlement_amounts_witness :
    tW4.accumulatedFees = sW4.accumulatedFees + 100 * sW4.feePercentage / 100 ∧
    tW4.ledger.free cfgW.palletAccount =
      sW4.ledger.free cfgW.palletAccount + 100 * sW4.feePercentage / 100 ∧
    (0 < 100 * cfgW.royaltyPercentage / 100 →
      tW4.ledger.free 9 = sW4.ledger.free 9 + 100 * cfgW.royaltyPercentage / 100) ∧
    (100 * cfgW.royaltyPercentage / 100 = 0 →
      tW4.ledger.free 9 = sW4.ledger.free 9) ∧
    tW4.ledger.free 1 =
      sW4.ledger.free 1 + (100 - 100 * sW4.feePercentage / 100) :=
  c4_settlement_amounts cfgW 0 3 100 sW4 tW4
    { owner := 1, start_block := 0, highest_bid := 100,
      highest_bidder := some 3, ended := false } 9
    (by decide) rfl rfl
    (by decide) (by decide) (by decide) (by decide) (by decide) (by decide)

theorem filter_length_lt {l : List (Nat × Nat)} {c : Nat} (h : ∃ a, (c, a) ∈ l) :
    (l.filter (fun e => e.1 ≠ c)).length < l.length := by
  induction l with
  | nil => rcases h with ⟨a, ha⟩; cases ha
  | cons hd tl ih =>
    rcases h with ⟨a, ha⟩
    rw [List.filter_cons]
    by_cases hc : hd.1 = c
    · rw [if_neg (by simp [hc])]
      have hle := List.length_filter_le (fun e : Nat × Nat => decide (e.1 ≠ c)) tl
      simp only [List.length_cons]
      omega
    · rw [if_pos (by simp [hc])]
      simp only [List.length_cons]
      have hlt2 : (tl.filter (fun e => e.1 ≠ c)).length < tl.length := by
        apply ih
        cases ha with
        | head => exact absurd rfl hc
        | tail _ hmem => exact ⟨a, hmem⟩
      omega

/-- C10: a highest bidder raising their own standing bid from `b1` to `b2`
must be able to reserve the full `b2` on top of the already reserved `b1`:
with free balance below `b2` the call fails with the ledger's
insufficient-funds error, and on success the reserved balance ends at
exactly `b2` (the net newly locked amount is only the delta, released by
the subsequent unreserve of `b1`). -/
theorem c10_self_raise (cfg : Config) (c x b1 b2 : Nat) (s : State) (r : AuctionInfo)
    (hA : lookupA x s.auctions = some r) (hE : r.ended = false)
    (hHB : r.highest_bidder = some c) (hB1 : r.highest_bid = b1)
    (hOwn : c ≠ r.owner) (hlt : b1 < b2)
    (hres : s.ledger.reserved c = b1)
    (hlen : (s.bids x).length ≤ cfg.maxBids)
    (hmem : ∃ a, (c, a) ∈ s.bids x) :
    (s.ledger.free c < b2 → place_bid cfg c x b2 s = .error .insufficientBalance) ∧
    (b2 ≤ s.ledger.free c →
      ∃ t, place_bid cfg c x b2 s = .ok t ∧ t.ledger.reserved c = b2) := by
  unfold place_bid
  simp only [hA, hB1, hHB]
  rw [if_neg (by simp [hE]), if_neg hOwn, if_neg (not_not_intro hlt)]
  have hflt : ((s.bids x).filter (fun e => e.1 ≠ c)).length < (s.bids x).length :=
    filter_length_lt hmem
  have hne : ¬ ((s.bids x).filter (fun e => e.1 ≠ c)).length = cfg.maxBids := by
    omega
  rcases hR : s.ledger.reserve c b2 with _ | led1
  · have hf2 : s.ledger.free c < b2 := by
      unfold Ledger.reserve at hR
      split at hR
      · assumption
      · simp at hR
    simp only [hR]
    exact ⟨fun _ => trivial, fun hge => absurd hf2 (Nat.not_lt.mpr hge)⟩
  · have hge : ¬ s.ledger.free c < b2 := by
      unfold Ledger.reserve at hR
      split at hR
      · simp at hR
      · assumption
    simp only [hR]
    rw [if_neg (fun hand => hne hand.1)]
    simp only [if_neg hne]
    rw [if_neg (by omega :
      ¬ cfg.maxBids ≤ ((s.bids x).filter (fun e => e.1 ≠ c)).length)]
    refine ⟨fun hf => absurd hf hge, fun _ => ⟨_, rfl, ?_⟩⟩
    have hl1 : led1.reserved c = b1 + b2 := by
      unfold Ledger.reserve at hR
      split at hR
      · simp at hR
      · injection hR with h2
        rw [← h2]
        simp [updN, hres]
    have hmin : min b1 (b1 + b2) = b1 := Nat.min_eq_left (Nat.le_add_right _ _)
    simp [Ledger.unreserve, updN, hl1, hmin]

/-- Asset 0 listed by account 1, then account 3 bids 50. -/
def sW10 : State := runOps cfgW [.listNft 1 0, .placeBid 3 0 50] init0

/-- Witness for C10: account 3 raises its own bid from 50 to 70; the
theorem yields both the insufficient-funds characterisation and the
success case, and here the free balance (950) covers 70, so the reserve
ends at exactly 70. -/
theorem c10_self_raise_witness :
    (sW10.ledger.free 3 < 70 → place_bid cfgW 3 0 70 sW10 = .error .insufficientBalance) ∧
    (70 ≤ sW10.ledger.free 3 →
      ∃ t, place_bid cfgW 3 0 70 sW10 = .ok t ∧ t.ledger.reserved 3 = 70) :=
  c10_self_raise cfgW 3 0 50 70 sW10
    { owner := 1, start_block := 0, highest_bid := 50,
      highest_bidder := some 3, ended := false }
    (by decide) rfl rfl rfl (by decide) (by decide) (by decide) (by decide)
    ⟨50, by decide⟩

theorem insertAt_mem_self (pos : Nat) (e : Nat × Nat) (l : List (Nat × Nat)) :
    e ∈ insertAt pos e l := by
  induction l generalizing pos with
  | nil => simp [insertAt]
  | cons h t ih =>
    cases pos with
    | zero => simp [insertAt]
    | succ p =>
      simp only [insertAt, List.mem_cons]
      exact Or.inr (ih p)

theorem insertAt_mem_of_mem (pos : Nat) (a e : Nat × Nat) (l : List (Nat × Nat))
    (h : e ∈ l) : e ∈ insertAt pos a l := by
  induction l generalizing pos with
  | nil => cases h
  | cons hd t ih =>
    cases pos with
    | zero =>
      show e ∈ a :: hd :: t
      exact List.mem_cons_of_mem _ h
    | succ p =>
      simp only [insertAt, List.mem_cons]
      rcases List.mem_cons.mp h with h1 | h1
      · exact Or.inl h1
      · exact Or.inr (ih p h1)

/-- C3, amended behaviour: when a different bidder `c` outbids the standing
highest bidder `p`, the accepted bid releases `p`'s reservation in full
while `p`'s Bid Book entry remains in the book; the new entry `(c, m)` is
inserted and only `c`'s funds are newly reserved. Entries other than the
current highest are therefore not backed by reservations. -/
theorem c3_outbid_release (cfg : Config) (c x p m : Nat) (s : State) (r : AuctionInfo)
    (hA : lookupA x s.auctions = some r) (hE : r.ended = false)
    (hHB : r.highest_bidder = some p) (hpc : p ≠ c)
    (hOwn : c ≠ r.owner) (hlt : r.highest_bid < m)
    (hfree : m ≤ s.ledger.free c)
    (hres : r.highest_bid ≤ s.ledger.reserved p)
    (hcap : ((s.bids x).filter (fun e => e.1 ≠ c)).length < cfg.maxBids) :
    ∃ t, place_bid cfg c x m s = .ok t ∧
      t.ledger.reserved p = s.ledger.reserved p - r.highest_bid ∧
      t.ledger.reserved c = s.ledger.reserved c + m ∧
      (∀ e, e ∈ s.bids x → e.1 = p → e ∈ t.bids x) ∧
      (c, m) ∈ t.bids x := by
  unfold place_bid
  simp only [hA, hHB]
  rw [if_neg (by simp [hE]), if_neg hOwn, if_neg (not_not_intro hlt)]
  have hne : ¬ ((s.bids x).filter (fun e => e.1 ≠ c)).length = cfg.maxBids := by
    omega
  rcases hR : s.ledger.reserve c m with _ | led1
  · have : ¬ m ≤ s.ledger.free c := by
      unfold Ledger.reserve at hR
      split at hR
      · omega
      · simp at hR
    exact absurd hfree this
  · simp only [hR]
    rw [if_neg (fun hand => hne hand.1)]
    simp only [if_neg hne]
    rw [if_neg (by omega :
      ¬ cfg.maxBids ≤ ((s.bids x).filter (fun e => e.1 ≠ c)).length)]
    have hled1 : led1.reserved = updN s.ledger.reserved c (s.ledger.reserved c + m) := by
      unfold Ledger.reserve at hR
      split at hR
      · simp at hR
      · injection hR with h2; rw [← h2]
    refine ⟨_, rfl, ?_, ?_, ?_, ?_⟩
    · simp only [Ledger.unreserve, hled1]
      rw [updN_other _ _ _ _ hpc, updN_same]
      rw [Nat.min_eq_left hres]
    · simp only [Ledger.unreserve, hled1]
      rw [updN_other _ _ _ _ (Ne.symm hpc), updN_same]
    · intro e he hep
      simp only [updBook, if_pos rfl]
      apply insertAt_mem_of_mem
      rw [List.mem_filter]
      refine ⟨he, by simp [hep, hpc]⟩
    · simp only [updBook, if_pos rfl]
      exact insertAt_mem_self _ _ _

/-- Witness for C3's amended behaviour: account 4 outbids account 3 (50 →
60) on the auction of `sW10`; 3's reservation drops to 0, 3's entry stays
in the book, and `(4, 60)` joins it. -/
theorem c3_outbid_release_witness :
    ∃ t, place_bid cfgW 4 0 60 sW10 = .ok t ∧
      t.ledger.reserved 3 = sW10.ledger.reserved 3 - 50 ∧
      t.ledger.reserved 4 = sW10.ledger.reserved 4 + 60 ∧
      (∀ e, e ∈ sW10.bids 0 → e.1 = 3 → e ∈ t.bids 0) ∧
      (4, 60) ∈ t.bids 0 :=
  c3_outbid_release cfgW 4 0 3 60 sW10
    { owner := 1, start_block := 0, highest_bid := 50,
      highest_bidder := some 3, ended := false }
    (by decide) rfl rfl (by decide) (by decide) (by decide) (by decide)
    (by decide) (by decide)

theorem lookupA_append (y : Nat) (l1 l2 : List (Nat × AuctionInfo)) :
    lookupA y (l1 ++ l2) =
      match lookupA y l1 with
      | some v => some v
      | none => lookupA y l2 := by
  induction l1 with
  | nil => simp [lookupA]
  | cons hd t ih =>
    rcases hd with ⟨k, v⟩
    by_cases hk : k = y
    · simp [lookupA, hk]
    · simp [lookupA, hk, ih]

theorem lookupA_map_repl (x : Nat) (v : AuctionInfo) (l : List (Nat × AuctionInfo)) :
    lookupA x (l.map (fun e => if e.1 = x then (x, v) else e)) =
      if l.any (fun e => e.1 = x) then some v else none := by
  induction l with
  | nil => simp [lookupA]
  | cons hd t ih =>
    rcases hd with ⟨k, w⟩
    by_cases hk : k = x
    · subst hk
      have hhd : (fun e : Nat × AuctionInfo => if e.1 = k then (k, v) else e) (k, w)
          = (k, v) := by simp
      simp only [List.map_cons, hhd]
      simp [lookupA]
    · have hhd : (fun e : Nat × AuctionInfo => if e.1 = x then (x, v) else e) (k, w)
          = (k, w) := by simp [hk]
      simp only [List.map_cons, hhd]
      rw [show lookupA x ((k, w) :: List.map (fun e => if e.1 = x then (x, v) else e) t)
            = lookupA x (List.map (fun e => if e.1 = x then (x, v) else e) t) from by
          simp [lookupA, hk]]
      rw [ih]
      simp only [List.any_cons]
      have hdk : decide (k = x) = false := by simp [hk]
      simp only [hdk, Bool.false_or]

theorem lookupA_map_repl_ne (y x : Nat) (v : AuctionInfo) (l : List (Nat × AuctionInfo))
    (h : y ≠ x) :
    lookupA y (l.map (fun e => if e.1 = x then (x, v) else e)) = lookupA y l := by
  induction l with
  | nil => rfl
  | cons hd t ih =>
    rcases hd with ⟨k, w⟩
    by_cases hk : k = x
    · subst hk
      have hhd : (fun e : Nat × AuctionInfo => if e.1 = k then (k, v) else e) (k, w)
          = (k, v) := by simp
      simp only [List.map_cons, hhd]
      simp [lookupA, Ne.symm h, ih]
    · have hhd : (fun e : Nat × AuctionInfo => if e.1 = x then (x, v) else e) (k, w)
          = (k, w) := by simp [hk]
      simp only [List.map_cons, hhd]
      simp [lookupA, hk, ih]

theorem lookupA_insertA_self (x : Nat) (v : AuctionInfo) (l : List (Nat × AuctionInfo)) :
    lookupA x (insertA x v l) = some v := by
  unfold insertA
  by_cases hany : l.any (fun e => e.1 = x) = true
  · rw [if_pos hany, lookupA_map_repl, if_pos hany]
  · rw [if_neg hany, lookupA_append]
    have hnone : lookupA x l = none := by
      induction l with
      | nil => rfl
      | cons hd t ih =>
        rcases hd with ⟨k, w⟩
        simp only [List.any_cons, Bool.or_eq_true, decide_eq_true_iff] at hany
        push_neg at hany
        simp [lookupA, hany.1, ih (by simpa using hany.2)]
    rw [hnone]
    simp [lookupA]

theorem lookupA_insertA_ne (y x : Nat) (v : AuctionInfo) (l : List (Nat × AuctionInfo))
    (h : y ≠ x) : lookupA y (insertA x v l) = lookupA y l := by
  unfold insertA
  split
  · exact lookupA_map_repl_ne y x v l h
  · rw [lookupA_append]
    rcases hy : lookupA y l with _ | w
    · simp [lookupA, hy]
      exact fun hh => h hh.symm
    · rfl

theorem updateA_cons (x : Nat) (f : AuctionInfo → AuctionInfo) (e : Nat × AuctionInfo)
    (t : List (Nat × AuctionInfo)) :
    updateA x f (e :: t) = (if e.1 = x then (x, f e.2) else e) :: updateA x f t := rfl

theorem lookupA_updateA_self (x : Nat) (f : AuctionInfo → AuctionInfo)
    (l : List (Nat × AuctionInfo)) :
    lookupA x (updateA x f l) = (lookupA x l).map f := by
  induction l with
  | nil => rfl
  | cons hd t ih =>
    rcases hd with ⟨k, w⟩
    by_cases hk : k = x
    · subst hk
      rw [updateA_cons, if_pos rfl]
      simp [lookupA, ih]
    · rw [updateA_cons, if_neg hk]
      simp [lookupA, hk, ih]

theorem lookupA_updateA_ne (y x : Nat) (f : AuctionInfo → AuctionInfo)
    (l : List (Nat × AuctionInfo)) (h : y ≠ x) :
    lookupA y (updateA x f l) = lookupA y l := by
  induction l with
  | nil => rfl
  | cons hd t ih =>
    rcases hd with ⟨k, w⟩
    by_cases hk : k = x
    · subst hk
      rw [updateA_cons, if_pos rfl]
      simp [lookupA, (show ¬ k = y from fun hh => h hh.symm), ih]
    · rw [updateA_cons, if_neg hk]
      simp [lookupA, ih]

/-- If every non-highest book entry fails to settle, the fallback loop of
`auto_resolve_auction` exhausts the book. -/
theorem tryFallback_none (cfg : Config) (x hb : Nat) (s : State)
    (l : List (Nat × Nat))
    (h : ∀ b m t, (b, m) ∈ l → b ≠ hb → finalize_auction cfg x b m s ≠ .ok t) :
    tryFallback cfg x hb s l = none := by
  induction l with
  | nil => rfl
  | cons e rest ih =>
    rcases e with ⟨b, m⟩
    unfold tryFallback
    by_cases hbhb : b ≠ hb
    · rw [if_pos hbhb]
      rcases hf : finalize_auction cfg x b m s with e1 | t
      · exact ih fun b' m' t' hm hne =>
          h b' m' t' (List.mem_cons_of_mem _ hm) hne
      · exact absurd hf (h b m t (List.mem_cons_self _ _) hbhb)
    · rw [if_neg hbhb]
      exact ih fun b' m' t' hm hne =>
        h b' m' t' (List.mem_cons_of_mem _ hm) hne

/-- C9: when the sweep's resolution of an overdue auction fails for the
highest bidder and for every fallback entry, the only mutations are the
record's `ended` flag and the `AuctionFailed` event: the highest bidder's
escrow stays reserved, the Bid Book is not cleared, the in-auction flag,
registry and fee state are untouched, and the record keeps its
`highest_bidder` and `highest_bid` values. -/
theorem c9_mark_failed_frame (cfg : Config) (x hb : Nat) (s : State) (r : AuctionInfo)
    (hA : lookupA x s.auctions = some r) (hE : r.ended = false)
    (hHB : r.highest_bidder = some hb)
    (hfail : ∀ t, finalize_auction cfg x hb r.highest_bid s ≠ .ok t)
    (hfb : ∀ b m t, (b, m) ∈ s.bids x → b ≠ hb →
      finalize_auction cfg x b m s ≠ .ok t) :
    auto_resolve_auction cfg x s = .ok (markFailed x r s) ∧
    (markFailed x r s).ledger = s.ledger ∧
    (markFailed x r s).bids = s.bids ∧
    (markFailed x r s).inAuction = s.inAuction ∧
    (markFailed x r s).accumulatedFees = s.accumulatedFees ∧
    (markFailed x r s).itemOwner = s.itemOwner ∧
    (markFailed x r s).itemFrozen = s.itemFrozen ∧
    lookupA x (markFailed x r s).auctions = some { r with ended := true } ∧
    (∀ y, y ≠ x → lookupA y (markFailed x r s).auctions = lookupA y s.auctions) ∧
    (markFailed x r s).events = s.events ++ [.auctionFailed x] := by
  refine ⟨?_, rfl, rfl, rfl, rfl, rfl, rfl,
    lookupA_insertA_self x _ s.auctions,
    fun y hy => lookupA_insertA_ne y x _ s.auctions hy, rfl⟩
  unfold auto_resolve_auction
  simp only [hA, hHB]
  rw [if_neg (by simp [hE])]
  rcases hf : finalize_auction cfg x hb r.highest_bid s with e1 | t
  · simp only [hf]
    rw [tryFallback_none cfg x hb s (s.bids x) hfb]
  · exact absurd hf (hfail t)

/-- The failed-settlement state: account 3 reserved its whole balance of
60, so `can_slash` fails at settlement time; the book holds only 3's own
entry, so there is no fallback. -/
def sW9 : State := runOps cfgT [.listNft 1 0, .placeBid 3 0 60] init60

/-- Witness for C9 on `sW9`. -/
theorem c9_mark_failed_frame_witness :
    auto_resolve_auction cfgT 0 sW9 =
      .ok (markFailed 0 { owner := 1, start_block := 0, highest_bid := 60,
                          highest_bidder := some 3, ended := false } sW9) ∧
    (markFailed 0 { owner := 1, start_block := 0, highest_bid := 60,
                    highest_bidder := some 3, ended := false } sW9).ledger =
      sW9.ledger ∧
    (markFailed 0 { owner := 1, start_block := 0, highest_bid := 60,
                    highest_bidder := some 3, ended := false } sW9).bids = sW9.bids ∧
    (markFailed 0 { owner := 1, start_block := 0, highest_bid := 60,
                    highest_bidder := some 3, ended := false } sW9).inAuction =
      sW9.inAuction ∧
    (markFailed 0 { owner := 1, start_block := 0, highest_bid := 60,
                    highest_bidder := some 3, ended := false } sW9).accumulatedFees =
      sW9.accumulatedFees ∧
    (markFailed 0 { owner := 1, start_block := 0, highest_bid := 60,
                    highest_bidder := some 3, ended := false } sW9).itemOwner =
      sW9.itemOwner ∧
    (markFailed 0 { owner := 1, start_block := 0, highest_bid := 60,
                    highest_bidder := some 3, ended := false } sW9).itemFrozen =
      sW9.itemFrozen ∧
    lookupA 0 (markFailed 0 { owner := 1, start_block := 0, highest_bid := 60,
                              highest_bidder := some 3, ended := false } sW9).auctions =
      some { owner := 1, start_block := 0, highest_bid := 60,
             highest_bidder := some 3, ended := true } ∧
    (∀ y, y ≠ 0 →
      lookupA y (markFailed 0 { owner := 1, start_block := 0, highest_bid := 60,
                                highest_bidder := some 3, ended := false } sW9).auctions =
        lookupA y sW9.auctions) ∧
    (markFailed 0 { owner := 1, start_block := 0, highest_bid := 60,
                    highest_bidder := some 3, ended := false } sW9).events =
      sW9.events ++ [.auctionFailed 0] :=
  c9_mark_failed_frame cfgT 0 3 sW9
    { owner := 1, start_block := 0, highest_bid := 60,
      highest_bidder := some 3, ended := false }
    (by decide) rfl rfl
    (fun t ht => by
      rw [show finalize_auction cfgT 0 3 60 sW9 = .error .noValidBuyer from rfl] at ht
      exact Except.noConfusion ht)
    (fun b m t hm hne => by
      have hbb : sW9.bids 0 = [(3, 60)] := by decide
      rw [hbb] at hm
      have h1 : (b, m) = ((3 : Nat), (60 : Nat)) := List.mem_singleton.mp hm
      have hb3 : b = 3 := congrArg Prod.fst h1
      exact absurd hb3 hne)

/-- C8: `withdraw_fees` under the root origin: with zero accumulated fees
it fails with `NoFeesAvailable` and the dispatched call leaves the state
unchanged; with positive fees covered by the treasury balance it zeroes
`accumulated_fees`, moves exactly the prior amount from the pallet account
to the recipient and appends the `FeesWithdrawn` event; if the transfer
itself fails the dispatched call leaves the state unchanged. -/
theorem c8_withdraw_fees (cfg : Config) (dest : Nat) (s : State)
    (hd : dest ≠ cfg.palletAccount) :
    (s.accumulatedFees = 0 →
      withdraw_fees cfg .root dest s = .error .noFeesAvailable ∧
      applyOp cfg (.withdrawFees .root dest) s = s) ∧
    (0 < s.accumulatedFees →
      s.accumulatedFees ≤ s.ledger.free cfg.palletAccount →
      ∃ t, withdraw_fees cfg .root dest s = .ok t ∧
        t.accumulatedFees = 0 ∧
        t.ledger.free dest = s.ledger.free dest + s.accumulatedFees ∧
        t.ledger.free cfg.palletAccount =
          s.ledger.free cfg.palletAccount - s.accumulatedFees ∧
        t.ledger.reserved = s.ledger.reserved ∧
        t.events = s.events ++ [.feesWithdrawn dest s.accumulatedFees]) ∧
    (s.ledger.free cfg.palletAccount < s.accumulatedFees →
      withdraw_fees cfg .root dest s = .error .insufficientBalance ∧
      applyOp cfg (.withdrawFees .root dest) s = s) := by
  refine ⟨?_, ?_, ?_⟩
  · intro h0
    have he : withdraw_fees cfg .root dest s = .error .noFeesAvailable := by
      unfold withdraw_fees
      rw [if_neg (by simp), if_pos h0]
    exact ⟨he, by simp [applyOp, he, Except.toOption]⟩
  · intro hpos hle
    rcases htr : s.ledger.transfer cfg.palletAccount dest s.accumulatedFees
        with _ | led
    · exfalso
      unfold Ledger.transfer Ledger.withdraw at htr
      rw [if_neg (Nat.not_lt.mpr hle)] at htr
      simp at htr
    · have he : withdraw_fees cfg .root dest s =
          .ok { s with accumulatedFees := 0,
                       ledger := led,
                       events := s.events ++
                         [.feesWithdrawn dest s.accumulatedFees] } := by
        unfold withdraw_fees
        rw [if_neg (by simp), if_neg (by omega)]
        simp only [htr]
      refine ⟨_, he, rfl, ?_, ?_, ?_, rfl⟩ <;>
      · unfold Ledger.transfer Ledger.withdraw at htr
        rw [if_neg (Nat.not_lt.mpr hle)] at htr
        injection htr with h2
        rw [← h2]
        simp [Ledger.deposit, updN, hd, Ne.symm hd]
  · intro hlt
    have he : withdraw_fees cfg .root dest s = .error .insufficientBalance := by
      unfold withdraw_fees
      rw [if_neg (by simp), if_neg (by omega)]
      have htr : s.ledger.transfer cfg.palletAccount dest s.accumulatedFees = none := by
        unfold Ledger.transfer Ledger.withdraw
        rw [if_pos hlt]
      simp only [htr]
    exact ⟨he, by simp [applyOp, he, Except.toOption]⟩

/-- Witness for C8 on the settled state `tW4`, whose accumulated fees are 5
and whose treasury account holds them. -/
theorem c8_withdraw_fees_witness :
    (tW4.accumulatedFees = 0 →
      withdraw_fees cfgW .root 7 tW4 = .error .noFeesAvailable ∧
      applyOp cfgW (.withdrawFees .root 7) tW4 = tW4) ∧
    (0 < tW4.accumulatedFees →
      tW4.accumulatedFees ≤ tW4.ledger.free cfgW.palletAccount →
      ∃ t, withdraw_fees cfgW .root 7 tW4 = .ok t ∧
        t.accumulatedFees = 0 ∧
        t.ledger.free 7 = tW4.ledger.free 7 + tW4.accumulatedFees ∧
        t.ledger.free cfgW.palletAccount =
          tW4.ledger.free cfgW.palletAccount - tW4.accumulatedFees ∧
        t.ledger.reserved = tW4.ledger.reserved ∧
        t.events = tW4.events ++ [.feesWithdrawn 7 tW4.accumulatedFees]) ∧
    (tW4.ledger.free cfgW.palletAccount < tW4.accumulatedFees →
      withdraw_fees cfgW .root 7 tW4 = .error .insufficientBalance ∧
      applyOp cfgW (.withdrawFees .root 7) tW4 = tW4) :=
  c8_withdraw_fees cfgW 7 tW4 (by decide)

/-- Shape of a successful settlement: the auctioned asset's record is
rewritten to ended with the buyer as highest bidder, its book is cleared
and its in-auction flag dropped, every other asset's storage is untouched,
and the resolved event is appended. -/
theorem finalize_ok_shape (cfg : Config) (x b m : Nat) (s t : State)
    (h : finalize_auction cfg x b m s = .ok t) :
    (∃ r, lookupA x s.auctions = some r ∧ r.ended = false ∧
      lookupA x t.auctions = some { r with ended := true, highest_bidder := some b }) ∧
    (∀ y, y ≠ x → lookupA y t.auctions = lookupA y s.auctions) ∧
    t.bids x = [] ∧ t.inAuction x = false ∧
    (∀ y, y ≠ x → t.bids y = s.bids y ∧ t.inAuction y = s.inAuction y) ∧
    t.events = s.events ++ [.auctionResolved x b m] ∧
    t.now = s.now ∧ t.feePercentage = s.feePercentage ∧
    t.auctions = updateA x
      (fun a => { a with ended := true, highest_bidder := some b })
      s.auctions := by
  have hraw := finalizeRaw_of_ok h
  unfold finalizeRaw at hraw
  rcases hA : lookupA x s.auctions with _ | r
  · simp [hA] at hraw
  simp only [hA] at hraw
  by_cases hE : r.ended = true
  · simp [if_pos hE] at hraw
  simp only [if_neg hE] at hraw
  rcases hO : s.itemOwner x with _ | cur
  · simp [hO] at hraw
  simp only [hO] at hraw
  by_cases hC : cur ≠ r.owner
  · simp [if_pos hC] at hraw
  simp only [if_neg hC] at hraw
  by_cases hS : s.ledger.canSlash b m = true
  · simp only [if_neg (not_not_intro hS)] at hraw
    rcases hL : (s.ledger.unreserve b m).withdraw b m with _ | led2
    · exact absurd hL (canSlash_withdraw _ _ _ hS)
    · simp only [hL, hO, updB] at hraw
      injection hraw with ht _
      have hAuc : t.auctions = updateA x
          (fun a => { a with ended := true, highest_bidder := some b }) s.auctions := by
        rw [← ht]
      have hBids : t.bids = updBook s.bids x [] := by rw [← ht]
      have hIn : t.inAuction = updB s.inAuction x false := by rw [← ht]
      have hEv : t.events = s.events ++ [.auctionResolved x b m] := by rw [← ht]
      have hNow : t.now = s.now := by rw [← ht]
      have hFee : t.feePercentage = s.feePercentage := by rw [← ht]
      refine ⟨⟨r, rfl, by simpa using hE, ?_⟩, fun y hy => ?_, ?_, ?_,
        fun y hy => ⟨?_, ?_⟩, hEv, hNow, hFee, hAuc⟩
      · rw [hAuc, lookupA_updateA_self, hA]
        rfl
      · rw [hAuc]
        exact lookupA_updateA_ne y x _ s.auctions hy
      · rw [hBids]
        simp [updBook]
      · rw [hIn]
        simp [updB]
      · rw [hBids]
        simp [updBook, hy]
      · rw [hIn]
        simp [updB, hy]
  · have hS2 : s.ledger.canSlash b m = false := by
      cases hcs : s.ledger.canSlash b m
      · rfl
      · exact absurd hcs hS
    simp [hS2] at hraw

/-- Soundness of the fallback order: a successful fallback settlement comes
from the first entry of the book (in book order) that is not the highest
bidder and settles; every earlier entry is the highest bidder's or fails. -/
theorem tryFallback_some (cfg : Config) (x hb : Nat) (s : State)
    (l : List (Nat × Nat)) (t : State)
    (h : tryFallback cfg x hb s l = some t) :
    ∃ l1 b m l2, l = l1 ++ (b, m) :: l2 ∧ b ≠ hb ∧
      finalize_auction cfg x b m s = .ok t ∧
      ∀ e, e ∈ l1 → e.1 = hb ∨ ∃ err, finalize_auction cfg x e.1 e.2 s = .error err := by
  induction l with
  | nil => exact absurd h (by simp [tryFallback])
  | cons e rest ih =>
    rcases e with ⟨b, m⟩
    unfold tryFallback at h
    by_cases hbh : b ≠ hb
    · rw [if_pos hbh] at h
      rcases hf : finalize_auction cfg x b m s with err | t'
      · simp only [hf] at h
        rcases ih h with ⟨l1, b', m', l2, heq, hne, hok, hprev⟩
        refine ⟨(b, m) :: l1, b', m', l2, by rw [heq, List.cons_append], hne, hok, ?_⟩
        intro e he
        rcases List.mem_cons.mp he with he1 | he1
        · rw [he1]
          exact Or.inr ⟨err, hf⟩
        · exact hprev e he1
      · simp only [hf] at h
        injection h with h1
        subst h1
        exact ⟨[], b, m, rest, rfl, hbh, hf, by simp⟩
    · rw [if_neg hbh] at h
      rcases ih h with ⟨l1, b', m', l2, heq, hne, hok, hprev⟩
      refine ⟨(b, m) :: l1, b', m', l2, by rw [heq, List.cons_append], hne, hok, ?_⟩
      intro e he
      rcases List.mem_cons.mp he with he1 | he1
      · rw [he1]
        exact Or.inl (not_not.mp hbh)
      · exact hprev e he1

/-- A successful fallback settles with some non-highest book entry. -/
theorem tryFallback_ok_finalize (cfg : Config) (x hb : Nat) (s : State)
    (l : List (Nat × Nat)) (t : State)
    (h : tryFallback cfg x hb s l = some t) :
    ∃ b m, b ≠ hb ∧ (b, m) ∈ l ∧ finalize_auction cfg x b m s = .ok t := by
  rcases tryFallback_some cfg x hb s l t h with ⟨l1, b, m, l2, heq, hne, hok, _⟩
  exact ⟨b, m, hne, by rw [heq]; simp, hok⟩

/-- A successful `auto_resolve_auction` is either a successful settlement
with some buyer, or the marking of a still-active fetched record as
failed. -/
theorem autoResolve_ok_cases (cfg : Config) (x : Nat) (st t : State)
    (h : auto_resolve_auction cfg x st = .ok t) :
    (∃ b m, finalize_auction cfg x b m st = .ok t) ∨
    (∃ r, lookupA x st.auctions = some r ∧ r.ended = false ∧
      t = markFailed x r st) := by
  unfold auto_resolve_auction at h
  rcases hA : lookupA x st.auctions with _ | r
  · simp [hA] at h
  simp only [hA] at h
  by_cases hE : r.ended = true
  · simp [if_pos hE] at h
  simp only [if_neg hE] at h
  rcases hHB : r.highest_bidder with _ | hb <;> simp only [hHB] at h
  · injection h with h1
    exact Or.inr ⟨r, rfl, by simpa using hE, h1.symm⟩
  · rcases hf : finalize_auction cfg x hb r.highest_bid st with e1 | t1 <;>
      simp only [hf] at h
    · rcases htf : tryFallback cfg x hb st (st.bids x) with _ | t2 <;>
        simp only [htf] at h
      · injection h with h1
        exact Or.inr ⟨r, rfl, by simpa using hE, h1.symm⟩
      · injection h with h1
        rcases tryFallback_ok_finalize cfg x hb st (st.bids x) t2 htf with
          ⟨b, m, _, _, hok⟩
        exact Or.inl ⟨b, m, by rw [h1] at hok; exact hok⟩
    · injection h with h1
      exact Or.inl ⟨hb, r.highest_bid, by rw [h1] at hf; exact hf⟩

/-- An `auto_resolve_auction` on a present record either reports the record
already ended, or succeeds and leaves the record ended. -/
theorem autoResolve_cases (cfg : Config) (x : Nat) (st : State) (r : AuctionInfo)
    (hA : lookupA x st.auctions = some r) :
    (r.ended = true ∧ auto_resolve_auction cfg x st = .error .auctionEnded) ∨
    (∃ t, auto_resolve_auction cfg x st = .ok t ∧
      ∃ r', lookupA x t.auctions = some r' ∧ r'.ended = true) := by
  by_cases hE : r.ended = true
  · refine Or.inl ⟨hE, ?_⟩
    unfold auto_resolve_auction
    simp only [hA, if_pos hE]
  · rcases hres : auto_resolve_auction cfg x st with e | t
    · exfalso
      unfold auto_resolve_auction at hres
      simp only [hA, if_neg hE] at hres
      rcases hHB : r.highest_bidder with _ | hb <;> simp only [hHB] at hres
      · exact Except.noConfusion hres
      · rcases hf : finalize_auction cfg x hb r.highest_bid st with e1 | t1 <;>
          simp only [hf] at hres
        · rcases htf : tryFallback cfg x hb st (st.bids x) with _ | t2 <;>
            simp only [htf] at hres <;> exact Except.noConfusion hres
        · exact Except.noConfusion hres
    · refine Or.inr ⟨t, rfl, ?_⟩
      rcases autoResolve_ok_cases cfg x st t hres with ⟨b, m, hok⟩ | ⟨r0, _, _, ht⟩
      · rcases finalize_ok_shape cfg x b m st t hok with ⟨⟨r0, _, _, hr0t⟩, _⟩
        exact ⟨_, hr0t, rfl⟩
      · rw [ht]
        exact ⟨{ r0 with ended := true }, lookupA_insertA_self x _ st.auctions, rfl⟩

/-- `resolveStep` on another asset leaves a key's record lookup unchanged. -/
theorem resolveStep_preserves (cfg : Config) (y x : Nat) (st : State) (hne : x ≠ y) :
    lookupA x (resolveStep cfg st y).auctions = lookupA x st.auctions := by
  unfold resolveStep
  rcases hr : auto_resolve_auction cfg y st with e | t
  · rfl
  · rcases autoResolve_ok_cases cfg y st t hr with ⟨b, m, hok⟩ | ⟨r0, _, _, ht⟩
    · exact (finalize_ok_shape cfg y b m st t hok).2.1 x hne
    · rw [ht]
      exact lookupA_insertA_ne x y _ st.auctions hne

/-- Once a record is ended, every later sweep step keeps it ended. -/
theorem resolveStep_keeps_ended (cfg : Config) (y x : Nat) (st : State)
    (r : AuctionInfo) (hx : lookupA x st.auctions = some r) (hr : r.ended = true) :
    ∃ r', lookupA x (resolveStep cfg st y).auctions = some r' ∧ r'.ended = true := by
  by_cases hxy : x = y
  · subst hxy
    have herr : auto_resolve_auction cfg x st = .error .auctionEnded := by
      unfold auto_resolve_auction
      simp only [hx, if_pos hr]
    unfold resolveStep
    rw [herr]
    exact ⟨r, hx, hr⟩
  · rw [resolveStep_preserves cfg y x st hxy]
    exact ⟨r, hx, hr⟩

/-- A key with a record keeps a record across a sweep step. -/
theorem resolveStep_presence (cfg : Config) (y x : Nat) (st : State)
    (h : ∃ r, lookupA x st.auctions = some r) :
    ∃ r, lookupA x (resolveStep cfg st y).auctions = some r := by
  rcases h with ⟨r, hx⟩
  by_cases hxy : x = y
  · subst hxy
    rcases autoResolve_cases cfg x st r hx with ⟨_, herr⟩ | ⟨t, hok, r', hr', _⟩
    · unfold resolveStep
      rw [herr]
      exact ⟨r, hx⟩
    · unfold resolveStep
      rw [hok]
      exact ⟨r', hr'⟩
  · rw [resolveStep_preserves cfg y x st hxy]
    exact ⟨r, hx⟩

theorem foldl_keeps_ended (cfg : Config) (l : List Nat) (x : Nat) :
    ∀ st r, lookupA x st.auctions = some r → r.ended = true →
    ∃ r', lookupA x (l.foldl (resolveStep cfg) st).auctions = some r' ∧
      r'.ended = true := by
  induction l with
  | nil => exact fun st r hx hr => ⟨r, hx, hr⟩
  | cons y rest ih =>
    intro st r hx hr
    rw [List.foldl_cons]
    rcases resolveStep_keeps_ended cfg y x st r hx hr with ⟨r', h1, h2⟩
    exact ih (resolveStep cfg st y) r' h1 h2

theorem foldl_ends (cfg : Config) (l : List Nat) (x : Nat) :
    ∀ st, x ∈ l → (∃ r, lookupA x st.auctions = some r) →
    ∃ r', lookupA x (l.foldl (resolveStep cfg) st).auctions = some r' ∧
      r'.ended = true := by
  induction l with
  | nil => intro st hmem _; cases hmem
  | cons y rest ih =>
    intro st hmem hpres
    rw [List.foldl_cons]
    rcases hpres with ⟨r, hx⟩
    by_cases hxy : x = y
    · subst hxy
      rcases autoResolve_cases cfg x st r hx with ⟨hend, herr⟩ | ⟨t, hok, r', hr', hend⟩
      · have hstep : resolveStep cfg st x = st := by
          unfold resolveStep
          rw [herr]
        rw [hstep]
        exact foldl_keeps_ended cfg rest x st r hx hend
      · have hstep : resolveStep cfg st x = t := by
          unfold resolveStep
          rw [hok]
        rw [hstep]
        exact foldl_keeps_ended cfg rest x t r' hr' hend
    · have hmem2 : x ∈ rest := by
        rcases List.mem_cons.mp hmem with h1 | h1
        · exact absurd h1 hxy
        · exact h1
      exact ih (resolveStep cfg st y) hmem2
        (resolveStep_presence cfg y x st ⟨r, hx⟩)

/-- A key listed among a map's keys has a record. -/
theorem lookupA_of_mem_keys (x : Nat) (l : List (Nat × AuctionInfo))
    (h : x ∈ l.map Prod.fst) : ∃ r, lookupA x l = some r := by
  induction l with
  | nil => simp at h
  | cons hd tl ih =>
    rcases hd with ⟨k, v⟩
    by_cases hk : k = x
    · exact ⟨v, by simp [lookupA, hk]⟩
    · have h2 : x ∈ tl.map Prod.fst := by
        rw [List.map_cons] at h
        rcases List.mem_cons.mp h with h1 | h1
        · exact absurd h1.symm hk
        · exact h1
      rcases ih h2 with ⟨r, hr⟩
      exact ⟨r, by simp [lookupA, hk, hr]⟩

theorem insertAt_zero (e : Nat × Nat) (l : List (Nat × Nat)) :
    insertAt 0 e l = e :: l := by
  cases l <;> rfl

theorem insertAt_length (pos : Nat) (e : Nat × Nat) (l : List (Nat × Nat)) :
    (insertAt pos e l).length = l.length + 1 := by
  induction l generalizing pos with
  | nil => simp [insertAt]
  | cons h t ih =>
    cases pos with
    | zero => simp [insertAt]
    | succ p => simp [insertAt, ih]

/-- Shape of an accepted bid: the record carries the new highest bid and
bidder; other assets' storage is untouched; the asset's book becomes the
bid inserted at its search position into the filtered (and, at capacity,
popped) previous book, whose length is below capacity. -/
theorem place_bid_ok_shape (cfg : Config) (c x m : Nat) (s t : State)
    (h : place_bid cfg c x m s = .ok t) :
    ∃ r, lookupA x s.auctions = some r ∧ r.ended = false ∧ r.highest_bid < m ∧
      lookupA x t.auctions =
        some { r with highest_bid := m, highest_bidder := some c } ∧
      (∀ y, y ≠ x → lookupA y t.auctions = lookupA y s.auctions) ∧
      (∀ y, y ≠ x → t.bids y = s.bids y) ∧
      t.inAuction = s.inAuction ∧ t.itemOwner = s.itemOwner ∧
      t.now = s.now ∧ t.feePercentage = s.feePercentage ∧
      (∃ bids1,
        (bids1 = (s.bids x).filter (fun e => e.1 ≠ c) ∨
         bids1 = ((s.bids x).filter (fun e => e.1 ≠ c)).dropLast) ∧
        bids1.length < cfg.maxBids ∧
        t.bids x = insertAt
          ((((s.bids x).filter (fun e => e.1 ≠ c)).filter (fun e => m < e.2)).length)
          (c, m) bids1) ∧
      t.auctions = insertA x
        { r with highest_bid := m, highest_bidder := some c } s.auctions ∧
      ∃ led1, s.ledger.reserve c m = some led1 ∧
        t.ledger = (match r.highest_bidder with
          | some p => led1.unreserve p r.highest_bid
          | none => led1) := by
  unfold place_bid at h
  rcases hA : lookupA x s.auctions with _ | r
  · simp [hA] at h
  simp only [hA] at h
  by_cases hE : r.ended = true
  · simp [if_pos hE] at h
  simp only [if_neg hE] at h
  by_cases hOwn : c = r.owner
  · simp [if_pos hOwn] at h
  simp only [if_neg hOwn] at h
  by_cases hLt : r.highest_bid < m
  · simp only [if_neg (not_not_intro hLt)] at h
    rcases hR : s.ledger.reserve c m with _ | led1
    · simp [hR] at h
    simp only [hR] at h
    by_cases hcap : ((s.bids x).filter (fun e => e.1 ≠ c)).length = cfg.maxBids ∧
        ((s.bids x).filter (fun e => e.1 ≠ c)).length ≤
          (((s.bids x).filter (fun e => e.1 ≠ c)).filter (fun e => m < e.2)).length
    · rw [if_pos hcap] at h
      exact Except.noConfusion h
    · simp only [if_neg hcap] at h
      by_cases hful : ((s.bids x).filter (fun e => e.1 ≠ c)).length = cfg.maxBids
      · simp only [if_pos hful] at h
        by_cases htm : cfg.maxBids ≤
            (((s.bids x).filter (fun e => e.1 ≠ c)).dropLast).length
        · rw [if_pos htm] at h
          exact Except.noConfusion h
        · simp only [if_neg htm] at h
          injection h with ht
          have hAuc : t.auctions = insertA x
              { r with highest_bid := m, highest_bidder := some c } s.auctions := by
            rw [← ht]
          have hBids : t.bids = updBook s.bids x (insertAt
              ((((s.bids x).filter (fun e => e.1 ≠ c)).filter
                (fun e => m < e.2)).length)
              (c, m) (((s.bids x).filter (fun e => e.1 ≠ c)).dropLast)) := by
            rw [← ht]
          refine ⟨r, rfl, by simpa using hE, hLt, ?_, ?_, ?_, by rw [← ht],
            by rw [← ht], by rw [← ht], by rw [← ht],
            ⟨((s.bids x).filter (fun e => e.1 ≠ c)).dropLast, Or.inr rfl,
              by omega, ?_⟩, hAuc, led1, rfl, by rw [← ht]⟩
          · rw [hAuc]
            exact lookupA_insertA_self x _ s.auctions
          · intro y hy
            rw [hAuc]
            exact lookupA_insertA_ne y x _ s.auctions hy
          · intro y hy
            rw [hBids]
            simp [updBook, hy]
          · rw [hBids]
            simp [updBook]
      · simp only [if_neg hful] at h
        by_cases htm : cfg.maxBids ≤ ((s.bids x).filter (fun e => e.1 ≠ c)).length
        · rw [if_pos htm] at h
          exact Except.noConfusion h
        · simp only [if_neg htm] at h
          injection h with ht
          have hAuc : t.auctions = insertA x
              { r with highest_bid := m, highest_bidder := some c } s.auctions := by
            rw [← ht]
          have hBids : t.bids = updBook s.bids x (insertAt
              ((((s.bids x).filter (fun e => e.1 ≠ c)).filter
                (fun e => m < e.2)).length)
              (c, m) ((s.bids x).filter (fun e => e.1 ≠ c))) := by
            rw [← ht]
          refine ⟨r, rfl, by simpa using hE, hLt, ?_, ?_, ?_, by rw [← ht],
            by rw [← ht], by rw [← ht], by rw [← ht],
            ⟨(s.bids x).filter (fun e => e.1 ≠ c), Or.inl rfl,
              by omega, ?_⟩, hAuc, led1, rfl, by rw [← ht]⟩
          · rw [hAuc]
            exact lookupA_insertA_self x _ s.auctions
          · intro y hy
            rw [hAuc]
            exact lookupA_insertA_ne y x _ s.auctions hy
          · intro y hy
            rw [hBids]
            simp [updBook, hy]
          · rw [hBids]
            simp [updBook]
  · rw [if_pos hLt] at h
    exact Except.noConfusion h

/-- Shape of a successful listing: it requires the asset to be outside the
active index, creates a fresh record and flags the asset in auction. -/
theorem list_ok_shape (c x : Nat) (s t : State)
    (h : list_nft_for_auction c x s = .ok t) :
    s.inAuction x = false ∧
    t.auctions = insertA x
      { owner := c, start_block := s.now, highest_bid := 0,
        highest_bidder := none, ended := false } s.auctions ∧
    t.bids = s.bids ∧ t.inAuction = updB s.inAuction x true ∧
    t.feePercentage = s.feePercentage ∧ t.ledger = s.ledger := by
  unfold list_nft_for_auction at h
  rcases hO : s.itemOwner x with _ | own
  · simp [hO] at h
  simp only [hO] at h
  by_cases hC : c ≠ own
  · rw [if_pos hC] at h
    exact Except.noConfusion h
  rw [if_neg hC] at h
  by_cases hIn : s.inAuction x = true
  · rw [if_pos hIn] at h
    exact Except.noConfusion h
  · rw [if_neg hIn] at h
    injection h with ht
    exact ⟨by simpa using hIn, by rw [← ht], by rw [← ht], by rw [← ht],
      by rw [← ht], by rw [← ht]⟩

/-- Shape of a successful fee-rate update: only the rate and events move. -/
theorem set_fee_ok_shape (o : Origin) (fee : Nat) (s t : State)
    (h : set_fee_percentage o fee s = .ok t) :
    t.auctions = s.auctions ∧ t.bids = s.bids ∧ t.inAuction = s.inAuction ∧
    t.ledger = s.ledger := by
  unfold set_fee_percentage at h
  by_cases h1 : o ≠ Origin.root
  · rw [if_pos h1] at h
    exact Except.noConfusion h
  rw [if_neg h1] at h
  by_cases h2 : 100 < fee
  · rw [if_pos h2] at h
    exact Except.noConfusion h
  · rw [if_neg h2] at h
    injection h with ht
    exact ⟨by rw [← ht], by rw [← ht], by rw [← ht], by rw [← ht]⟩

/-- Shape of a successful fee withdrawal: only the ledger, the accumulated
fees and the events move. -/
theorem withdraw_fees_ok_shape (cfg : Config) (o : Origin) (dest : Nat) (s t : State)
    (h : withdraw_fees cfg o dest s = .ok t) :
    t.auctions = s.auctions ∧ t.bids = s.bids ∧ t.inAuction = s.inAuction ∧
    t.ledger.reserved = s.ledger.reserved := by
  unfold withdraw_fees at h
  by_cases h1 : o ≠ Origin.root
  · rw [if_pos h1] at h
    exact Except.noConfusion h
  rw [if_neg h1] at h
  by_cases h2 : s.accumulatedFees = 0
  · rw [if_pos h2] at h
    exact Except.noConfusion h
  rw [if_neg h2] at h
  rcases htr : s.ledger.transfer cfg.palletAccount dest s.accumulatedFees with _ | led
  · simp only [htr] at h
    exact Except.noConfusion h
  · simp only [htr] at h
    injection h with ht
    refine ⟨by rw [← ht], by rw [← ht], by rw [← ht], ?_⟩
    have hl : t.ledger = led := by rw [← ht]
    rw [hl]
    unfold Ledger.transfer at htr
    rcases hw : s.ledger.withdraw cfg.palletAccount s.accumulatedFees with _ | lw
    · rw [hw] at htr
      exact Option.noConfusion htr
    · rw [hw] at htr
      injection htr with h2
      rw [← h2]
      unfold Ledger.withdraw at hw
      split at hw
      · exact Option.noConfusion hw
      · injection hw with h3
        rw [← h3]
        simp [Ledger.deposit]

/-- Structural invariant of the Bid Book and the active index: every book
is bounded by the capacity, strictly descending, dominated by its record's
highest bid, and non-empty books and active records imply the in-auction
flag. -/
def InvBook (cfg : Config) (s : State) : Prop :=
  ∀ x, (s.bids x).length ≤ cfg.maxBids ∧
    List.Pairwise (fun a b : Nat × Nat => b.2 < a.2) (s.bids x) ∧
    (∀ r, lookupA x s.auctions = some r → ∀ e, e ∈ s.bids x → e.2 ≤ r.highest_bid) ∧
    (s.bids x ≠ [] → s.inAuction x = true) ∧
    (∀ r, lookupA x s.auctions = some r → r.ended = false → s.inAuction x = true)

theorem invBook_init (cfg : Config) (s : State) (h : initOk s) : InvBook cfg s := by
  rcases h with ⟨-, hauc, hbids, hin, -, -, -, -⟩
  intro x
  rw [hbids x, hauc]
  exact ⟨by simp, by simp, fun r hr => Option.noConfusion hr,
    fun hne => absurd rfl hne, fun r hr => Option.noConfusion hr⟩

/-- A successful settlement preserves the book invariant. -/
theorem invBook_finalize (cfg : Config) (y b m : Nat) (st t : State)
    (hok : finalize_auction cfg y b m st = .ok t) (h : InvBook cfg st) :
    InvBook cfg t := by
  rcases finalize_ok_shape cfg y b m st t hok with
    ⟨⟨r, hA, hEnd, hAt⟩, hne, hbx, hin, hothers, -, -, -⟩
  intro z
  by_cases hzy : z = y
  · subst hzy
    rw [hbx]
    refine ⟨by simp, by simp, fun r' hr' e he => absurd he (List.not_mem_nil e),
      fun hne2 => absurd rfl hne2, fun r' hr' hre => ?_⟩
    rw [hAt] at hr'
    injection hr' with hr2
    rw [← hr2] at hre
    simp at hre
  · rcases h z with ⟨h1, h2, h3, h4, h5⟩
    rcases hothers z hzy with ⟨hbz, hiz⟩
    rw [hbz, hiz, hne z hzy]
    exact ⟨h1, h2, h3, h4, h5⟩

/-- Marking an auction failed preserves the book invariant. -/
theorem invBook_markFailed (cfg : Config) (y : Nat) (r : AuctionInfo) (st : State)
    (hA : lookupA y st.auctions = some r) (h : InvBook cfg st) :
    InvBook cfg (markFailed y r st) := by
  intro z
  rcases h z with ⟨h1, h2, h3, h4, h5⟩
  by_cases hzy : z = y
  · subst hzy
    refine ⟨h1, h2, fun r' hr' e he => ?_, h4, fun r' hr' hre => ?_⟩
    · rw [show (markFailed z r st).auctions =
          insertA z { r with ended := true } st.auctions from rfl,
        lookupA_insertA_self] at hr'
      injection hr' with hr2
      rw [← hr2]
      exact h3 r hA e he
    · rw [show (markFailed z r st).auctions =
          insertA z { r with ended := true } st.auctions from rfl,
        lookupA_insertA_self] at hr'
      injection hr' with hr2
      rw [← hr2] at hre
      simp at hre
  · refine ⟨h1, h2, fun r' hr' e he => ?_, h4, fun r' hr' hre => ?_⟩
    · rw [show (markFailed y r st).auctions =
          insertA y { r with ended := true } st.auctions from rfl,
        lookupA_insertA_ne z y _ st.auctions hzy] at hr'
      exact h3 r' hr' e he
    · rw [show (markFailed y r st).auctions =
          insertA y { r with ended := true } st.auctions from rfl,
        lookupA_insertA_ne z y _ st.auctions hzy] at hr'
      exact h5 r' hr' hre

theorem invBook_resolveStep (cfg : Config) (st : State) (y : Nat)
    (h : InvBook cfg st) : InvBook cfg (resolveStep cfg st y) := by
  unfold resolveStep
  rcases hr : auto_resolve_auction cfg y st with e | t
  · exact h
  · rcases autoResolve_ok_cases cfg y st t hr with ⟨b, m, hok⟩ | ⟨r, hA, _, ht⟩
    · exact invBook_finalize cfg y b m st t hok h
    · rw [ht]
      exact invBook_markFailed cfg y r st hA h

/-- An accepted bid preserves the book invariant. -/
theorem invBook_place_bid (cfg : Config) (c y m : Nat) (s t : State)
    (hok : place_bid cfg c y m s = .ok t) (h : InvBook cfg s) :
    InvBook cfg t := by
  rcases place_bid_ok_shape cfg c y m s t hok with
    ⟨r, hA, hEnd, hLt, hAt, hne, hbo, hin, -, -, -, ⟨bids1, hb1, hlen, hbt⟩, -, -⟩
  have hsub : bids1.Sublist (s.bids y) := by
    rcases hb1 with hb1 | hb1 <;> rw [hb1]
    · exact List.filter_sublist _
    · exact (List.dropLast_sublist _).trans (List.filter_sublist _)
  rcases h y with ⟨h1, h2, h3, h4, h5⟩
  have hdom : ∀ e, e ∈ bids1 → e.2 < m :=
    fun e he => Nat.lt_of_le_of_lt (h3 r hA e (hsub.subset he)) hLt
  have hpos : ((((s.bids y).filter (fun e => e.1 ≠ c)).filter
      (fun e => m < e.2)).length) = 0 := by
    rw [List.filter_eq_nil_iff.mpr ?_]
    · rfl
    · intro a ha
      have ham : a ∈ s.bids y := (List.filter_sublist _).subset ha
      have := h3 r hA a ham
      simp only [decide_eq_true_iff]
      omega
  have hbt2 : t.bids y = (c, m) :: bids1 := by
    rw [hbt, hpos, insertAt_zero]
  intro z
  by_cases hzy : z = y
  · subst hzy
    refine ⟨?_, ?_, fun r' hr' e he => ?_, fun _ => ?_, fun r' hr' hre => ?_⟩
    · rw [hbt2]
      simpa using hlen
    · rw [hbt2]
      exact List.pairwise_cons.mpr ⟨fun e he => hdom e he, h2.sublist hsub⟩
    · rw [hAt] at hr'
      injection hr' with hr2
      rw [← hr2]
      rw [hbt2] at he
      rcases List.mem_cons.mp he with he1 | he1
      · rw [he1]
      · exact Nat.le_of_lt (hdom e he1)
    · rw [hin]
      exact h5 r hA (by simpa using hEnd)
    · rw [hin]
      exact h5 r hA (by simpa using hEnd)
  · rcases h z with ⟨g1, g2, g3, g4, g5⟩
    rw [hbo z hzy, hin, hne z hzy]
    exact ⟨g1, g2, g3, g4, g5⟩

/-- A successful listing preserves the book invariant. -/
theorem invBook_list (c y : Nat) (s t : State) (cfg : Config)
    (hok : list_nft_for_auction c y s = .ok t) (h : InvBook cfg s) :
    InvBook cfg t := by
  rcases list_ok_shape c y s t hok with ⟨hnin, hAuc, hbids, hin, -⟩
  have hby : s.bids y = [] := by
    rcases h y with ⟨-, -, -, h4, -⟩
    by_cases hbe : s.bids y = []
    · exact hbe
    · rw [h4 hbe] at hnin
      exact Bool.noConfusion hnin
  intro z
  rcases h z with ⟨h1, h2, h3, h4, h5⟩
  by_cases hzy : z = y
  · subst hzy
    rw [hbids, hby]
    refine ⟨by simp, by simp, fun r' hr' e he => absurd he (List.not_mem_nil e),
      fun hne2 => absurd rfl hne2, fun r' hr' hre => ?_⟩
    rw [hin]
    simp [updB]
  · rw [hbids, hin, hAuc, lookupA_insertA_ne z y _ s.auctions hzy]
    refine ⟨h1, h2, h3, fun hne2 => ?_, fun r' hr' hre => ?_⟩
    · rw [show updB s.inAuction y true z = s.inAuction z from by simp [updB, hzy]]
      exact h4 hne2
    · rw [show updB s.inAuction y true z = s.inAuction z from by simp [updB, hzy]]
      exact h5 r' hr' hre

theorem invBook_step (cfg : Config) (s : State) (op : Op) (h : InvBook cfg s) :
    InvBook cfg (applyOp cfg op s) := by
  cases op with
  | listNft c x =>
    rcases hres : list_nft_for_auction c x s with e | t
    · simpa [applyOp, hres, Except.toOption] using h
    · have happ : applyOp cfg (.listNft c x) s = t := by
        simp [applyOp, hres, Except.toOption]
      rw [happ]
      exact invBook_list c x s t cfg hres h
  | placeBid c x m =>
    rcases hres : place_bid cfg c x m s with e | t
    · simpa [applyOp, hres, Except.toOption] using h
    · have happ : applyOp cfg (.placeBid c x m) s = t := by
        simp [applyOp, hres, Except.toOption]
      rw [happ]
      exact invBook_place_bid cfg c x m s t hres h
  | resolveAuction c x =>
    rcases hres : resolve_auction cfg c x s with e | t
    · simpa [applyOp, hres, Except.toOption] using h
    · have happ : applyOp cfg (.resolveAuction c x) s = t := by
        simp [applyOp, hres, Except.toOption]
      rw [happ]
      have hfin : ∃ b m, finalize_auction cfg x b m s = .ok t := by
        unfold resolve_auction at hres
        rcases hA : lookupA x s.auctions with _ | r
        · simp [hA] at hres
        simp only [hA] at hres
        by_cases hE : r.ended = true
        · rw [if_pos hE] at hres
          exact Except.noConfusion hres
        rw [if_neg hE] at hres
        by_cases hC : c ≠ r.owner
        · rw [if_pos hC] at hres
          exact Except.noConfusion hres
        rw [if_neg hC] at hres
        rcases hHB : r.highest_bidder with _ | hb <;> simp only [hHB] at hres
        · exact Except.noConfusion hres
        · exact ⟨hb, r.highest_bid, hres⟩
      rcases hfin with ⟨b, m, hok⟩
      exact invBook_finalize cfg x b m s t hok h
  | setFee o fee =>
    rcases hres : set_fee_percentage o fee s with e | t
    · simpa [applyOp, hres, Except.toOption] using h
    · have happ : applyOp cfg (.setFee o fee) s = t := by
        simp [applyOp, hres, Except.toOption]
      rw [happ]
      rcases set_fee_ok_shape o fee s t hres with ⟨ha, hb, hc, -⟩
      intro z
      rw [ha, hb, hc]
      exact h z
  | withdrawFees o dest =>
    rcases hres : withdraw_fees cfg o dest s with e | t
    · simpa [applyOp, hres, Except.toOption] using h
    · have happ : applyOp cfg (.withdrawFees o dest) s = t := by
        simp [applyOp, hres, Except.toOption]
      rw [happ]
      rcases withdraw_fees_ok_shape cfg o dest s t hres with ⟨ha, hb, hc, -⟩
      intro z
      rw [ha, hb, hc]
      exact h z
  | nextBlock =>
    have h1 : InvBook cfg { s with now := s.now + 1 } := fun z => h z
    show InvBook cfg (sweep cfg { s with now := s.now + 1 })
    unfold sweep
    generalize { s with now := s.now + 1 } = s1 at h1 ⊢
    generalize overdueKeys cfg s1 = keys
    induction keys generalizing s1 with
    | nil => exact h1
    | cons y rest ih =>
      rw [List.foldl_cons]
      exact ih (resolveStep cfg s1 y) (invBook_resolveStep cfg s1 y h1)

/-- Every reachable state satisfies the book invariant. -/
theorem reachable_invBook (cfg : Config) (s : State) (h : Reachable cfg s) :
    InvBook cfg s := by
  induction h with
  | base s hs => exact invBook_init cfg s hs
  | step s op _ ih => exact invBook_step cfg s op ih

/-- C5: in every reachable state the Bid Book never exceeds the capacity
`MaxBidsPerAuction`; at capacity, a new bid by a bidder without a standing
entry ranking strictly below every current entry is rejected with
`BidTooLow` and the dispatched call changes nothing (in particular no
reserved balance); a qualifying new bid (above the current highest)
succeeds and evicts the lowest entry, keeping the book at capacity. -/
theorem c5_bounded_book (cfg : Config) (s : State) (hreach : Reachable cfg s) :
    (∀ x, (s.bids x).length ≤ cfg.maxBids) ∧
    (∀ x r bidder amount, lookupA x s.auctions = some r → r.ended = false →
      bidder ≠ r.owner →
      (s.bids x).length = cfg.maxBids → 1 ≤ cfg.maxBids →
      bidder ∉ (s.bids x).map Prod.fst →
      (∀ e, e ∈ s.bids x → amount < e.2) →
      place_bid cfg bidder x amount s = .error .bidTooLow ∧
      applyOp cfg (.placeBid bidder x amount) s = s) ∧
    (∀ x r bidder amount, lookupA x s.auctions = some r → r.ended = false →
      bidder ≠ r.owner → r.highest_bid < amount →
      amount ≤ s.ledger.free bidder →
      (s.bids x).length = cfg.maxBids → 1 ≤ cfg.maxBids →
      bidder ∉ (s.bids x).map Prod.fst →
      ∃ t, place_bid cfg bidder x amount s = .ok t ∧
        t.bids x = (bidder, amount) :: (s.bids x).dropLast ∧
        (t.bids x).length = cfg.maxBids) := by
  have hinv := reachable_invBook cfg s hreach
  refine ⟨fun x => (hinv x).1, ?_, ?_⟩
  · intro x r bidder amount hA hE hown hlen hK hnotin hbelow
    have hne : s.bids x ≠ [] := by
      intro hnil
      rw [hnil] at hlen
      simp at hlen
      omega
    rcases List.exists_mem_of_ne_nil _ hne with ⟨e, he⟩
    have hcond : ¬ r.highest_bid < amount := by
      have h1 := hbelow e he
      have h2 := (hinv x).2.2.1 r hA e he
      omega
    have herr : place_bid cfg bidder x amount s = .error .bidTooLow := by
      unfold place_bid
      simp only [hA]
      rw [if_neg (by simp [hE]), if_neg hown, if_pos hcond]
    exact ⟨herr, by simp [applyOp, herr, Except.toOption]⟩
  · intro x r bidder amount hA hE hown hLt hfree hlen hK hnotin
    have hfilt : (s.bids x).filter (fun e => e.1 ≠ bidder) = s.bids x := by
      rw [List.filter_eq_self]
      intro a ha
      simp only [decide_eq_true_iff]
      intro hab
      exact hnotin (hab ▸ List.mem_map_of_mem Prod.fst ha)
    have hpos : ((s.bids x).filter (fun e => amount < e.2)).length = 0 := by
      rw [List.filter_eq_nil_iff.mpr ?_]
      · rfl
      · intro a ha
        have h2 := (hinv x).2.2.1 r hA a ha
        simp only [decide_eq_true_iff]
        omega
    unfold place_bid
    simp only [hA]
    rw [if_neg (by simp [hE]), if_neg hown, if_neg (not_not_intro hLt)]
    rcases hR : s.ledger.reserve bidder amount with _ | led1
    · exfalso
      unfold Ledger.reserve at hR
      rw [if_neg (Nat.not_lt.mpr hfree)] at hR
      exact Option.noConfusion hR
    simp only [hR]
    rw [hfilt]
    rw [if_neg (fun hand => by
      have h2 := hand.2
      rw [hpos] at h2
      omega)]
    simp only [if_pos hlen]
    rw [if_neg (by
      rw [List.length_dropLast, hlen]
      omega)]
    have hbids : updBook s.bids x
        (insertAt ((List.filter (fun e => amount < e.2) (s.bids x)).length)
          (bidder, amount) ((s.bids x).dropLast)) x =
        (bidder, amount) :: (s.bids x).dropLast := by
      simp only [updBook, eq_self_iff_true, if_true]
      rw [hpos, insertAt_zero]
    refine ⟨_, rfl, ?_, ?_⟩
    · exact hbids
    · show (updBook s.bids x _ x).length = _
      rw [hbids]
      simp only [List.length_cons, List.length_dropLast, hlen]
      omega

/-- A capacity-one configuration driven to a full book: asset 0 listed by
account 1, account 3 holds the single entry with bid 50. -/
def sW5 : State := runOps cfgK [.listNft 1 0, .placeBid 3 0 50] init0

/-- Witness for C5 with `MaxBidsPerAuction = 1`: the book [(3, 50)] is at
capacity; account 4's bid of 30 (below every entry) is rejected with
`BidTooLow` and changes nothing; account 4's bid of 60 evicts the lowest
entry and leaves the book at capacity. -/
theorem c5_bounded_book_witness :
    (∀ x, (sW5.bids x).length ≤ cfgK.maxBids) ∧
    (place_bid cfgK 4 0 30 sW5 = .error .bidTooLow ∧
      applyOp cfgK (.placeBid 4 0 30) sW5 = sW5) ∧
    (∃ t, place_bid cfgK 4 0 60 sW5 = .ok t ∧
      t.bids 0 = (4, 60) :: (sW5.bids 0).dropLast ∧
      (t.bids 0).length = cfgK.maxBids) := by
  have hre : Reachable cfgK sW5 := by
    have h : sW5 = applyOp cfgK (.placeBid 3 0 50)
        (applyOp cfgK (.listNft 1 0) init0) := rfl
    rw [h]
    exact .step _ _ (.step _ _ (.base _ init0_ok))
  have hmain := c5_bounded_book cfgK sW5 hre
  refine ⟨hmain.1, ?_, ?_⟩
  · exact hmain.2.1 0 ⟨1, 0, 50, some 3, false⟩ 4 30
      (by decide) rfl (by decide) (by decide) (by decide) (by decide)
      (by decide)
  · exact hmain.2.2 0 ⟨1, 0, 50, some 3, false⟩ 4 60
      (by decide) rfl (by decide) (by decide) (by decide) (by decide)
      (by decide) (by decide)

/-- C6: behaviour of the timeout sweep. For an overdue active auction:
settlement is attempted with the highest bidder first; if that fails, the
Bid Book entries are tried in book order (descending amounts, by the
reachable-state sortedness in the last conjunct) until the first success,
every earlier non-highest entry having failed; if every candidate fails,
or there are no bids, the auction is marked ended without a settlement and
the auction-failed event is emitted; and the sweep ends every overdue
auction, so a failure on one asset never prevents the processing of
another. -/
theorem c6_sweep_resolution (cfg : Config) (s : State) :
    (∀ x r hb, lookupA x s.auctions = some r → r.ended = false →
      r.highest_bidder = some hb →
      (∀ t, finalize_auction cfg x hb r.highest_bid s = .ok t →
        auto_resolve_auction cfg x s = .ok t) ∧
      (∀ e1, finalize_auction cfg x hb r.highest_bid s = .error e1 →
        (∀ t, auto_resolve_auction cfg x s = .ok t →
          t = markFailed x r s ∨
          ∃ l1 b m l2, s.bids x = l1 ++ (b, m) :: l2 ∧ b ≠ hb ∧
            finalize_auction cfg x b m s = .ok t ∧
            ∀ e, e ∈ l1 → e.1 = hb ∨
              ∃ err, finalize_auction cfg x e.1 e.2 s = .error err) ∧
        ((∀ b m t2, (b, m) ∈ s.bids x → b ≠ hb →
            finalize_auction cfg x b m s ≠ .ok t2) →
          auto_resolve_auction cfg x s = .ok (markFailed x r s) ∧
          (markFailed x r s).events = s.events ++ [.auctionFailed x]))) ∧
    (∀ x r, lookupA x s.auctions = some r → r.ended = false →
      r.highest_bidder = none →
      auto_resolve_auction cfg x s = .ok (markFailed x r s) ∧
      (markFailed x r s).events = s.events ++ [.auctionFailed x] ∧
      ∃ r', lookupA x (markFailed x r s).auctions = some r' ∧ r'.ended = true) ∧
    (∀ x, x ∈ overdueKeys cfg s →
      ∃ r', lookupA x (sweep cfg s).auctions = some r' ∧ r'.ended = true) ∧
    (Reachable cfg s →
      ∀ x, List.Pairwise (fun a b : Nat × Nat => b.2 < a.2) (s.bids x)) := by
  refine ⟨?_, ?_, ?_, ?_⟩
  · intro x r hb hA hE hHB
    refine ⟨?_, ?_⟩
    · intro t hok
      unfold auto_resolve_auction
      simp only [hA]
      rw [if_neg (by simp [hE])]
      simp only [hHB, hok]
    · intro e1 hf
      refine ⟨?_, ?_⟩
      · intro t hok
        unfold auto_resolve_auction at hok
        simp only [hA] at hok
        rw [if_neg (by simp [hE])] at hok
        simp only [hHB, hf] at hok
        rcases htf : tryFallback cfg x hb s (s.bids x) with _ | t2 <;>
          simp only [htf] at hok
        · injection hok with h1
          exact Or.inl h1.symm
        · injection hok with h1
          rw [← h1]
          exact Or.inr (tryFallback_some cfg x hb s (s.bids x) t2 htf)
      · intro hall
        have hnone : tryFallback cfg x hb s (s.bids x) = none :=
          tryFallback_none cfg x hb s (s.bids x)
            (fun b m t2 hm hne => hall b m t2 hm hne)
        refine ⟨?_, rfl⟩
        unfold auto_resolve_auction
        simp only [hA]
        rw [if_neg (by simp [hE])]
        simp only [hHB, hf, hnone]
  · intro x r hA hE hHB
    refine ⟨?_, rfl, { r with ended := true },
      lookupA_insertA_self x _ s.auctions, rfl⟩
    unfold auto_resolve_auction
    simp only [hA]
    rw [if_neg (by simp [hE])]
    simp only [hHB]
  · intro x hmem
    have hpres : ∃ r, lookupA x s.auctions = some r := by
      apply lookupA_of_mem_keys
      unfold overdueKeys at hmem
      rcases List.mem_map.mp hmem with ⟨e, he, hex⟩
      rw [← hex]
      exact List.mem_map_of_mem Prod.fst (List.mem_of_mem_filter he)
    unfold sweep
    exact foldl_ends cfg (overdueKeys cfg s) x s hmem hpres
  · intro hre x
    exact ((reachable_invBook cfg s hre) x).2.1

/-- The failed-settlement state of `sW9`, with the clock pushed past the
timeout so the auction is overdue. -/
def sW6 : State := { sW9 with now := 5 }

/-- Witness for C6: on `sW6` (overdue auction whose only candidate cannot
pay), the sweep ends the auction, and the per-asset resolution marks it
failed with the auction-failed event. -/
theorem c6_sweep_resolution_witness :
    (∃ r', lookupA 0 (sweep cfgT sW6).auctions = some r' ∧ r'.ended = true) ∧
    (auto_resolve_auction cfgT 0 sW6 =
        .ok (markFailed 0 ⟨1, 0, 60, some 3, false⟩ sW6) ∧
      (markFailed 0 ⟨1, 0, 60, some 3, false⟩ sW6).events =
        sW6.events ++ [.auctionFailed 0]) := by
  have hmain := c6_sweep_resolution cfgT sW6
  refine ⟨hmain.2.2.1 0 (by decide), ?_⟩
  exact ((hmain.1 0 ⟨1, 0, 60, some 3, false⟩ 3 (by decide) rfl rfl).2
    Err.noValidBuyer (by rfl)).2
    (fun b m t2 hm hne => by
      have hbb : sW6.bids 0 = [(3, 60)] := by decide
      rw [hbb] at hm
      have h1 : (b, m) = ((3 : Nat), (60 : Nat)) := List.mem_singleton.mp hm
      exact absurd (congrArg Prod.fst h1) hne)

/-- Single-asset strengthened invariant: every record keys the one asset,
and the active highest bidder's reserved balance covers the highest bid. -/
def SInv (x : Nat) (s : State) : Prop :=
  (∀ e, e ∈ s.auctions → e.1 = x) ∧
  (∀ r b, lookupA x s.auctions = some r → r.ended = false →
    r.highest_bidder = some b → r.highest_bid ≤ s.ledger.reserved b)

theorem insertA_keys (x : Nat) (v : AuctionInfo) (l : List (Nat × AuctionInfo))
    (h : ∀ e, e ∈ l → e.1 = x) : ∀ e, e ∈ insertA x v l → e.1 = x := by
  intro e he
  unfold insertA at he
  split at he
  · rcases List.mem_map.mp he with ⟨a, ha, hae⟩
    by_cases hax : a.1 = x
    · rw [if_pos hax] at hae
      rw [← hae]
    · rw [if_neg hax] at hae
      rw [← hae]
      exact h a ha
  · rcases List.mem_append.mp he with h1 | h1
    · exact h e h1
    · rw [List.mem_singleton.mp h1]

theorem updateA_keys (x : Nat) (f : AuctionInfo → AuctionInfo)
    (l : List (Nat × AuctionInfo)) (h : ∀ e, e ∈ l → e.1 = x) :
    ∀ e, e ∈ updateA x f l → e.1 = x := by
  intro e he
  unfold updateA at he
  rcases List.mem_map.mp he with ⟨a, ha, hae⟩
  by_cases hax : a.1 = x
  · rw [if_pos hax] at hae
    rw [← hae]
  · rw [if_neg hax] at hae
    rw [← hae]
    exact h a ha

theorem lookupA_some_mem (y : Nat) (l : List (Nat × AuctionInfo)) (r : AuctionInfo)
    (h : lookupA y l = some r) : ∃ e, e ∈ l ∧ e.1 = y := by
  induction l with
  | nil => exact Option.noConfusion h
  | cons hd t ih =>
    rcases hd with ⟨k, v⟩
    by_cases hk : k = y
    · exact ⟨(k, v), List.mem_cons_self _ _, hk⟩
    · rw [show lookupA y ((k, v) :: t) = lookupA y t from by simp [lookupA, hk]] at h
      rcases ih h with ⟨e, he, hey⟩
      exact ⟨e, List.mem_cons_of_mem _ he, hey⟩

theorem reserve_reserved (l : Ledger) (a v : Nat) (led : Ledger)
    (h : l.reserve a v = some led) :
    led.reserved = updN l.reserved a (l.reserved a + v) := by
  unfold Ledger.reserve at h
  split at h
  · exact Option.noConfusion h
  · injection h with h1
    rw [← h1]

theorem sInv_place_bid (cfg : Config) (c y x m : Nat) (s t : State)
    (hok : place_bid cfg c y m s = .ok t) (h : SInv x s) : SInv x t := by
  rcases place_bid_ok_shape cfg c y m s t hok with
    ⟨r, hA, hEnd, hLt, hAt, -, -, -, -, -, -, -, hAuc, led1, hR, hled⟩
  rcases h with ⟨hkeys, hres⟩
  have hyx : y = x := by
    rcases lookupA_some_mem y s.auctions r hA with ⟨e, he, hey⟩
    rw [← hey]
    exact hkeys e he
  subst hyx
  constructor
  · rw [hAuc]
    exact insertA_keys y _ s.auctions hkeys
  · intro r' b hr' hre hb
    rw [hAt] at hr'
    injection hr' with h1
    rw [← h1] at hb hre ⊢
    have hb0 : some c = some b := hb
    have hb2 : c = b := by injection hb0
    subst hb2
    show m ≤ t.ledger.reserved c
    rcases hhb : r.highest_bidder with _ | p <;> simp only [hhb] at hled
    · rw [hled, reserve_reserved s.ledger c m led1 hR, updN_same]
      omega
    · by_cases hpc : p = c
      · subst hpc
        have hr1 : led1.reserved p = s.ledger.reserved p + m := by
          rw [reserve_reserved s.ledger p m led1 hR, updN_same]
        have hle := hres r p hA hEnd hhb
        rw [hled]
        show m ≤ updN led1.reserved p
          (led1.reserved p - min r.highest_bid (led1.reserved p)) p
        rw [updN_same, hr1, Nat.min_eq_left (by omega)]
        omega
      · rw [hled]
        show m ≤ updN led1.reserved p
          (led1.reserved p - min r.highest_bid (led1.reserved p)) c
        rw [updN_other _ _ _ _ (fun hcp => hpc hcp.symm)]
        rw [reserve_reserved s.ledger c m led1 hR, updN_same]
        omega

theorem sInv_finalize (cfg : Config) (y b m x : Nat) (s t : State)
    (hok : finalize_auction cfg y b m s = .ok t) (h : SInv x s) : SInv x t := by
  rcases finalize_ok_shape cfg y b m s t hok with
    ⟨⟨r, hA, hEnd, hAt⟩, -, -, -, -, -, -, -, hAuc⟩
  rcases h with ⟨hkeys, hres⟩
  have hyx : y = x := by
    rcases lookupA_some_mem y s.auctions r hA with ⟨e, he, hey⟩
    rw [← hey]
    exact hkeys e he
  subst hyx
  constructor
  · rw [hAuc]
    exact updateA_keys y _ s.auctions hkeys
  · intro r' b' hr' hre hb'
    rw [hAt] at hr'
    injection hr' with h1
    rw [← h1] at hre
    simp at hre

theorem sInv_markFailed (y x : Nat) (r : AuctionInfo) (s : State)
    (hA : lookupA y s.auctions = some r) (h : SInv x s) :
    SInv x (markFailed y r s) := by
  rcases h with ⟨hkeys, hres⟩
  have hyx : y = x := by
    rcases lookupA_some_mem y s.auctions r hA with ⟨e, he, hey⟩
    rw [← hey]
    exact hkeys e he
  subst hyx
  constructor
  · show ∀ e, e ∈ insertA y { r with ended := true } s.auctions → e.1 = y
    exact insertA_keys y _ s.auctions hkeys
  · intro r' b' hr' hre hb'
    rw [show (markFailed y r s).auctions =
        insertA y { r with ended := true } s.auctions from rfl,
      lookupA_insertA_self] at hr'
    injection hr' with h1
    rw [← h1] at hre
    simp at hre

theorem sInv_resolveStep (cfg : Config) (x : Nat) (st : State) (y : Nat)
    (h : SInv x st) : SInv x (resolveStep cfg st y) := by
  unfold resolveStep
  rcases hr : auto_resolve_auction cfg y st with e | t
  · exact h
  · rcases autoResolve_ok_cases cfg y st t hr with ⟨b, m, hok⟩ | ⟨r, hA, _, ht⟩
    · exact sInv_finalize cfg y b m x st t hok h
    · rw [ht]
      exact sInv_markFailed y x r st hA h

theorem sInv_list (c y x : Nat) (s t : State)
    (hok : list_nft_for_auction c y s = .ok t) (hyx : y = x) (h : SInv x s) :
    SInv x t := by
  subst hyx
  rcases list_ok_shape c y s t hok with ⟨-, hAuc, -, -, -, hled⟩
  rcases h with ⟨hkeys, hres⟩
  constructor
  · rw [hAuc]
    exact insertA_keys y _ s.auctions hkeys
  · intro r' b' hr' hre hb'
    rw [hAuc, lookupA_insertA_self] at hr'
    injection hr' with h1
    rw [← h1] at hb'
    exact Option.noConfusion hb'

theorem sInv_step (cfg : Config) (x : Nat) (s : State) (op : Op)
    (hop : op.touchesOnly x) (h : SInv x s) : SInv x (applyOp cfg op s) := by
  cases op with
  | listNft c y =>
    rcases hres : list_nft_for_auction c y s with e | t
    · simpa [applyOp, hres, Except.toOption] using h
    · have happ : applyOp cfg (.listNft c y) s = t := by
        simp [applyOp, hres, Except.toOption]
      rw [happ]
      exact sInv_list c y x s t hres hop h
  | placeBid c y m =>
    rcases hres : place_bid cfg c y m s with e | t
    · simpa [applyOp, hres, Except.toOption] using h
    · have happ : applyOp cfg (.placeBid c y m) s = t := by
        simp [applyOp, hres, Except.toOption]
      rw [happ]
      exact sInv_place_bid cfg c y x m s t hres h
  | resolveAuction c y =>
    rcases hres : resolve_auction cfg c y s with e | t
    · simpa [applyOp, hres, Except.toOption] using h
    · have happ : applyOp cfg (.resolveAuction c y) s = t := by
        simp [applyOp, hres, Except.toOption]
      rw [happ]
      have hfin : ∃ b m, finalize_auction cfg y b m s = .ok t := by
        unfold resolve_auction at hres
        rcases hA : lookupA y s.auctions with _ | r
        · simp [hA] at hres
        simp only [hA] at hres
        by_cases hE : r.ended = true
        · rw [if_pos hE] at hres
          exact Except.noConfusion hres
        rw [if_neg hE] at hres
        by_cases hC : c ≠ r.owner
        · rw [if_pos hC] at hres
          exact Except.noConfusion hres
        rw [if_neg hC] at hres
        rcases hHB : r.highest_bidder with _ | hb <;> simp only [hHB] at hres
        · exact Except.noConfusion hres
        · exact ⟨hb, r.highest_bid, hres⟩
      rcases hfin with ⟨b, m, hok⟩
      exact sInv_finalize cfg y b m x s t hok h
  | setFee o fee =>
    rcases hres : set_fee_percentage o fee s with e | t
    · simpa [applyOp, hres, Except.toOption] using h
    · have happ : applyOp cfg (.setFee o fee) s = t := by
        simp [applyOp, hres, Except.toOption]
      rw [happ]
      rcases set_fee_ok_shape o fee s t hres with ⟨ha, -, -, hd⟩
      rcases h with ⟨hkeys, hres2⟩
      refine ⟨by rw [ha]; exact hkeys, ?_⟩
      intro r b hr hre hb
      rw [ha] at hr
      rw [hd]
      exact hres2 r b hr hre hb
  | withdrawFees o dest =>
    rcases hres : withdraw_fees cfg o dest s with e | t
    · simpa [applyOp, hres, Except.toOption] using h
    · have happ : applyOp cfg (.withdrawFees o dest) s = t := by
        simp [applyOp, hres, Except.toOption]
      rw [happ]
      rcases withdraw_fees_ok_shape cfg o dest s t hres with ⟨ha, -, -, hd⟩
      rcases h with ⟨hkeys, hres2⟩
      refine ⟨by rw [ha]; exact hkeys, ?_⟩
      intro r b hr hre hb
      rw [ha] at hr
      rw [hd]
      exact hres2 r b hr hre hb
  | nextBlock =>
    have h1 : SInv x { s with now := s.now + 1 } := h
    show SInv x (sweep cfg { s with now := s.now + 1 })
    unfold sweep
    generalize { s with now := s.now + 1 } = s1 at h1 ⊢
    generalize overdueKeys cfg s1 = keys
    induction keys generalizing s1 with
    | nil => exact h1
    | cons y rest ih =>
      rw [List.foldl_cons]
      exact ih (resolveStep cfg s1 y) (sInv_resolveStep cfg x s1 y h1)

theorem sInv_reachableOn (cfg : Config) (x : Nat) (s : State)
    (h : ReachableOn cfg x s) : SInv x s := by
  induction h with
  | base s hs =>
    rcases hs with ⟨hresz, hauc, -, -, -, -, -, -⟩
    constructor
    · rw [hauc]
      intro e he
      cases he
    · intro r b hr hre hb
      rw [hauc] at hr
      exact Option.noConfusion hr
  | step s op _ hop ih => exact sInv_step cfg x s op hop ih

/-- C1, amended: in the single-asset system (every asset-directed call
targets asset `x`), the reserved balance of the active highest bidder is
at least the auction's highest bid. Equality does not hold in general:
reserved balances aggregate across auctions, and failed settlements leave
escrow behind, as the counterexample shows. -/
theorem c1_escrow_lower_bound (cfg : Config) (x : Nat) (s : State)
    (h : ReachableOn cfg x s) (r : AuctionInfo) (b : Nat)
    (hA : lookupA x s.auctions = some r) (hE : r.ended = false)
    (hHB : r.highest_bidder = some b) :
    r.highest_bid ≤ s.ledger.reserved b :=
  (sInv_reachableOn cfg x s h).2 r b hA hE hHB

/-- Witness for C1's amended theorem: after listing asset 0 and a bid of 50
by account 3, the escrow of account 3 covers the highest bid. -/
theorem c1_escrow_lower_bound_witness :
    (50 : Nat) ≤ sW10.ledger.reserved 3 := by
  have hre : ReachableOn cfgW 0 sW10 := by
    have h : sW10 = applyOp cfgW (.placeBid 3 0 50)
        (applyOp cfgW (.listNft 1 0) init0) := rfl
    rw [h]
    exact .step _ _ (.step _ _ (.base _ init0_ok) rfl) rfl
  exact c1_escrow_lower_bound cfgW 0 sW10 hre
    ⟨1, 0, 50, some 3, false⟩ 3 (by decide) rfl rfl

end Auction
